import Mathlib

/-!
Verification development for the `rtrace` CPU path tracer.

Shallow embedding conventions:
* Python floats are modelled as rationals (`ℚ`); the handful of places where
  the source stores `±math.inf` in an `Interval` are modelled with the
  extended type `XQ` below.
* `math.sqrt` is modelled as an explicit function parameter `sq : ℚ → ℚ`;
  theorems that depend on its behaviour carry a local hypothesis pinning it
  to the exact square root at the points where the source evaluates it.
* A Python function that can raise an exception is modelled with `Option`
  (`none` = the call raised).
* Mutation of a `HitRecord` / `Interval` is modelled by explicit state
  passing: a hit routine receives the current record state and returns the
  new one.
-/

namespace RTrace

/-- Extended rationals: the value space of `Interval` bounds in
`rtrace.assets.hittable` (`-math.inf`, finite floats, `math.inf`). -/
inductive XQ where
  | ninf : XQ
  | fin (val : ℚ) : XQ
  | pinf : XQ
deriving DecidableEq

namespace XQ

/-- Boolean comparison on extended rationals. -/
def leb : XQ → XQ → Bool
  | .ninf, _ => true
  | .fin _, .ninf => false
  | .fin a, .fin b => decide (a ≤ b)
  | .fin _, .pinf => true
  | .pinf, .pinf => true
  | .pinf, _ => false

instance instLinearOrder : LinearOrder XQ where
  le a b := leb a b = true
  lt a b := leb b a = false
  le_refl a := by cases a <;> simp [leb]
  le_trans a b c hab hbc := by
    cases a <;> cases b <;> cases c <;>
      simp_all [leb] <;> exact le_trans hab hbc
  le_antisymm a b hab hba := by
    cases a <;> cases b <;> simp_all [leb]
    exact le_antisymm hab hba
  le_total a b := by
    cases a <;> cases b <;> simp [leb] <;> exact le_total _ _
  lt_iff_le_not_le a b := by
    cases a <;> cases b <;> simp [leb]
    exact fun h => h.le
  decidableLE a b := decidable_of_iff (leb a b = true) Iff.rfl
  decidableLT a b := decidable_of_iff (leb b a = false) Iff.rfl
  decidableEq := inferInstance

instance (a b : XQ) : Decidable (a ≤ b) := instLinearOrder.decidableLE a b

instance (a b : XQ) : Decidable (a < b) := instLinearOrder.decidableLT a b

theorem le_def (a b : XQ) : (a ≤ b) = (leb a b = true) := rfl

theorem lt_def (a b : XQ) : (a < b) = (leb b a = false) := rfl

theorem fin_le_fin {a b : ℚ} : (fin a ≤ fin b) ↔ a ≤ b := by
  simp [le_def, leb]

theorem fin_lt_fin {a b : ℚ} : (fin a < fin b) ↔ a < b := by
  rw [lt_def]
  simp [leb]

theorem lt_pinf (a : ℚ) : fin a < pinf := by rw [lt_def]; rfl

theorem ninf_lt (a : ℚ) : ninf < fin a := by rw [lt_def]; rfl

theorem le_pinf (a : XQ) : a ≤ pinf := by cases a <;> rw [le_def] <;> rfl

theorem ninf_le (a : XQ) : ninf ≤ a := by rw [le_def]; rfl

end XQ

/-- 3D vector over ℚ (`rtrace.vec3.Vector3`); `Point3` is the same type. -/
structure Vec3 where
  x : ℚ
  y : ℚ
  z : ℚ
deriving DecidableEq

abbrev Point3 := Vec3

namespace Vec3

instance : Add Vec3 := ⟨fun a b => ⟨a.x + b.x, a.y + b.y, a.z + b.z⟩⟩
instance : Sub Vec3 := ⟨fun a b => ⟨a.x - b.x, a.y - b.y, a.z - b.z⟩⟩
instance : Neg Vec3 := ⟨fun a => ⟨-a.x, -a.y, -a.z⟩⟩
instance : SMul ℚ Vec3 := ⟨fun q a => ⟨q * a.x, q * a.y, q * a.z⟩⟩

@[simp] theorem add_def (a b : Vec3) :
    a + b = ⟨a.x + b.x, a.y + b.y, a.z + b.z⟩ := rfl

@[simp] theorem sub_def (a b : Vec3) :
    a - b = ⟨a.x - b.x, a.y - b.y, a.z - b.z⟩ := rfl

@[simp] theorem neg_def (a : Vec3) : -a = ⟨-a.x, -a.y, -a.z⟩ := rfl

@[simp] theorem smul_def (q : ℚ) (a : Vec3) :
    q • a = ⟨q * a.x, q * a.y, q * a.z⟩ := rfl

/-- `Vector3.dot`. -/
def dot (a b : Vec3) : ℚ := a.x * b.x + a.y * b.y + a.z * b.z

/-- `Vector3.cross`. -/
def cross (a b : Vec3) : Vec3 :=
  ⟨a.y * b.z - a.z * b.y, a.z * b.x - a.x * b.z, a.x * b.y - a.y * b.x⟩

/-- `Vector3.length_squared`. -/
def lengthSquared (a : Vec3) : ℚ := a.x * a.x + a.y * a.y + a.z * a.z

/-- `Vector3.unit_vector`, with `math.sqrt` supplied as `sq`. -/
def unitVector (sq : ℚ → ℚ) (a : Vec3) : Vec3 :=
  (1 / sq a.lengthSquared) • a

end Vec3

/-- `rtrace.ray.Ray`. -/
structure Ray where
  origin : Point3
  direction : Vec3
deriving DecidableEq

/-- `Ray.at`. -/
def Ray.at (r : Ray) (t : ℚ) : Point3 := r.origin + t • r.direction

/-- Search interval (`rtrace.assets.hittable.Interval`), bounds possibly
infinite as in the source defaults. -/
structure Interval where
  min : XQ
  max : XQ
deriving DecidableEq

namespace Interval

/-- `Interval.contains` (inclusive). -/
def contains (I : Interval) (x : ℚ) : Prop :=
  I.min ≤ XQ.fin x ∧ XQ.fin x ≤ I.max

/-- `Interval.surrounds` (exclusive). -/
def surrounds (I : Interval) (x : ℚ) : Prop :=
  I.min < XQ.fin x ∧ XQ.fin x < I.max

instance (I : Interval) (x : ℚ) : Decidable (I.contains x) := by
  unfold contains; infer_instance

instance (I : Interval) (x : ℚ) : Decidable (I.surrounds x) := by
  unfold surrounds; infer_instance

/-- `Interval.empty()`. -/
def emptyI : Interval := ⟨XQ.pinf, XQ.ninf⟩

/-- `Interval.universe()`. -/
def universeI : Interval := ⟨XQ.ninf, XQ.pinf⟩

end Interval

/-- Finite per-axis interval of a bounding box.  Every `AABB` the repository
constructs (`from_points`, `from_box`, `Triangle.__init__`) has finite
bounds, so box axes are embedded with plain rational endpoints. -/
structure QInterval where
  min : ℚ
  max : ℚ
deriving DecidableEq

/-- `Interval.from_intervals`, restricted to the finite intervals used as
box axes. -/
def QInterval.fromIntervals (a b : QInterval) : QInterval :=
  ⟨Min.min a.min b.min, Max.max a.max b.max⟩

/-- `rtrace.assets.hittable.AABB`. -/
structure AABB where
  x : QInterval
  y : QInterval
  z : QInterval
deriving DecidableEq

namespace AABB

/-- `AABB.from_points`. -/
def fromPoints (a b : Point3) : AABB :=
  ⟨if a.x ≤ b.x then ⟨a.x, b.x⟩ else ⟨b.x, a.x⟩,
   if a.y ≤ b.y then ⟨a.y, b.y⟩ else ⟨b.y, a.y⟩,
   if a.z ≤ b.z then ⟨a.z, b.z⟩ else ⟨b.z, a.z⟩⟩

/-- `AABB.from_box`. -/
def fromBox (b0 b1 : AABB) : AABB :=
  ⟨QInterval.fromIntervals b0.x b1.x,
   QInterval.fromIntervals b0.y b1.y,
   QInterval.fromIntervals b0.z b1.z⟩

/-- One iteration of the loop body of `AABB.hit` for a single axis.
`none` models the `ZeroDivisionError` raised by `adinv = 1.0 / adinv`
when the direction component is zero; `some false` models the early
`return False`; `some true` means the loop continues.  Note the source
keeps `adinv` equal to the raw direction component whenever it is nonzero
(the reciprocal is only attempted in the zero case), and compares against
the *widened* bounds `min(ray_t.min, t0, t1)` / `max(ray_t.max, t0, t1)`. -/
def axisStep (ax : QInterval) (d o : ℚ) (I : Interval) : Option Bool :=
  if d = 0 then none
  else
    let t0 := (ax.min - o) * d
    let t1 := (ax.max - o) * d
    let m := Min.min I.min (Min.min (XQ.fin t0) (XQ.fin t1))
    let M := Max.max I.max (Max.max (XQ.fin t0) (XQ.fin t1))
    if M ≤ m then some false else some true

/-- `AABB.hit` (identical in `rtrace/assets/hittable.py` and the historical
snapshot `rtrace/hittable.py`): the three axes are processed in x, y, z
order with an early `return False`. -/
def hit (b : AABB) (r : Ray) (I : Interval) : Option Bool :=
  match axisStep b.x r.direction.x r.origin.x I with
  | none => none
  | some false => some false
  | some true =>
    match axisStep b.y r.direction.y r.origin.y I with
    | none => none
    | some false => some false
    | some true => axisStep b.z r.direction.z r.origin.z I

/-- Modelled from the spec (§4.2), as the comparison point for C1: the
intended slab test.  Per axis with nonzero direction component the entry
and exit distances use the reciprocal of the component; the candidate
interval is narrowed and the test rejects as soon as its max ≤ min.  A zero
component (infinite reciprocal) degenerates to the parallel-ray membership
test, the pass/fail the spec asks the infinities to produce. -/
def axisNarrowSpec (ax : QInterval) (d o : ℚ) : Interval → Option Interval :=
  fun I =>
    if d = 0 then
      if ax.min ≤ o ∧ o ≤ ax.max then some I else none
    else
      let t0 := (ax.min - o) / d
      let t1 := (ax.max - o) / d
      let lo := Max.max I.min (XQ.fin (Min.min t0 t1))
      let hi := Min.min I.max (XQ.fin (Max.max t0 t1))
      if hi ≤ lo then none else some ⟨lo, hi⟩

/-- Modelled from the spec (§4.2): the full three-axis narrowing slab
test; `false` as soon as some axis empties the candidate interval. -/
def hitSpec (b : AABB) (r : Ray) (I : Interval) : Bool :=
  match axisNarrowSpec b.x r.direction.x r.origin.x I with
  | none => false
  | some I1 =>
    match axisNarrowSpec b.y r.direction.y r.origin.y I1 with
    | none => false
    | some I2 =>
      match axisNarrowSpec b.z r.direction.z r.origin.z I2 with
      | none => false
      | some _ => true

end AABB

/-- The unit box `[0,1]^3`. -/
def boxUnit : AABB := ⟨⟨0, 1⟩, ⟨0, 1⟩, ⟨0, 1⟩⟩

/-- A ray that starts at x = 5 and moves away from `boxUnit` (all direction
components nonzero, so the buggy reciprocal guard is not triggered). -/
def rayAway : Ray := ⟨⟨5, 1/2, 1/2⟩, ⟨2, 3, 4⟩⟩

/-- A ray whose x direction component is zero. -/
def rayFlatX : Ray := ⟨⟨5, 1/2, 1/2⟩, ⟨0, 1, 1⟩⟩

/-- The integrator search interval `[0.001, +inf)`. -/
def iEps : Interval := ⟨XQ.fin (1/1000), XQ.pinf⟩

/-- C1: the claim says `AABB.hit` narrows the candidate interval per axis
using reciprocals of the direction components and returns true only when
the slab overlap meets the search interval.  The code instead leaves the
direction component un-inverted and *widens* the interval
(`min(ray_t.min, t0, t1)` / `max(ray_t.max, t0, t1)`), so a ray pointing
away from the box — whose slab overlap with `[0.001, inf)` is empty, as the
spec-modelled slab test confirms — is still reported as a hit. -/
theorem C1_aabb_hit_widens_instead_of_narrowing :
    AABB.hit boxUnit rayAway iEps = some true ∧
      AABB.hitSpec boxUnit rayAway iEps = false := by
  constructor
  · norm_num [AABB.hit, AABB.axisStep, boxUnit, rayAway, iEps, min_def, max_def,
      XQ.le_def, XQ.leb]
  · norm_num [AABB.hitSpec, AABB.axisNarrowSpec, boxUnit, rayAway, iEps, min_def,
      max_def, XQ.le_def, XQ.leb]

/-- C2: the claim says a zero direction component is guarded and produces a
pass/fail boolean.  In the code the guard is inverted: `if not adinv` is
exactly the zero case, and `adinv = 1.0 / adinv` then raises
`ZeroDivisionError` (modelled by `none`). -/
theorem C2_aabb_hit_zero_component_raises :
    AABB.hit boxUnit rayFlatX iEps = none := by
  norm_num [AABB.hit, AABB.axisStep, boxUnit, rayFlatX, iEps]

/-- `rtrace.assets.hittable.HitRecord` with every field written (a hit
routine either leaves the record alone or overwrites all fields).
Materials are identified by an opaque id. -/
structure HitRecord where
  p : Point3
  normal : Vec3
  mat : ℕ
  t : ℚ
  u : ℚ
  v : ℚ
  front : Bool
deriving DecidableEq

/-- `HitRecord.set_face_normal`: returns `(front_face, normal)`. -/
def faceNormal (r : Ray) (outward : Vec3) : Bool × Vec3 :=
  if Vec3.dot r.direction outward < 0 then (true, outward) else (false, -outward)

/-- The record state threaded through hit routines: `none` is a fresh
`HitRecord()` whose fields are unset. -/
abbrev RecS := Option HitRecord

/-- `Interval(0, 1).contains`, the precomputed `_unit_contains` of
`Quad`/`Triangle`. -/
def unitContains (x : ℚ) : Prop := 0 ≤ x ∧ x ≤ 1

instance (x : ℚ) : Decidable (unitContains x) := by
  unfold unitContains; infer_instance

/-- `rtrace.assets.hittable.Sphere` (stored attributes). -/
structure Sphere where
  center : Point3
  radius : ℚ
  mat : ℕ
  bbox : AABB
deriving DecidableEq

/-- `Sphere.__init__`: note the bounding box is built from `-rvec` and
`rvec` alone — the center is not added. -/
def mkSphere (center : Point3) (radius : ℚ) (mat : ℕ) : Sphere :=
  let rvec : Point3 := ⟨radius, radius, radius⟩
  ⟨center, radius, mat, AABB.fromPoints (-rvec) rvec⟩

/-- Discriminant of the reduced sphere quadratic, as computed by
`Sphere.hit`. -/
def Sphere.disc (s : Sphere) (r : Ray) : ℚ :=
  let oc := s.center - r.origin
  let a := r.direction.lengthSquared
  let h := Vec3.dot r.direction oc
  let c := oc.lengthSquared - s.radius * s.radius
  h * h - a * c

/-- The two quadratic roots tried by `Sphere.hit` (smaller first). -/
def Sphere.roots (sq : ℚ → ℚ) (s : Sphere) (r : Ray) : ℚ × ℚ :=
  let oc := s.center - r.origin
  let a := r.direction.lengthSquared
  let h := Vec3.dot r.direction oc
  let sqrtd := sq (s.disc r)
  ((h - sqrtd) / a, (h + sqrtd) / a)

/-- The record written by `Sphere.hit` on a successful hit at parameter
`root`. -/
def Sphere.record (s : Sphere) (uv : Vec3 → ℚ × ℚ) (r : Ray) (root : ℚ) :
    HitRecord :=
  let p := r.at root
  let outward := (1 / s.radius) • (p - s.center)
  let fn := faceNormal r outward
  let uvp := uv outward
  ⟨p, fn.2, s.mat, root, uvp.1, uvp.2, fn.1⟩

/-- `Sphere.hit`.  `sq` stands for `math.sqrt`; `uv` stands for
`Sphere.get_uv`, whose spherical-coordinate mapping uses `acos`/`atan2`/π
and therefore lives outside ℚ — no claim depends on its formula, only on
the value being recorded.  `none` models the `ZeroDivisionError` raised by
the root division when the direction is the zero vector (`a == 0`) or by
the outward-normal division when `radius == 0`. -/
def Sphere.hit (sq : ℚ → ℚ) (uv : Vec3 → ℚ × ℚ) (s : Sphere) (r : Ray)
    (I : Interval) (rec : RecS) : Option (Bool × RecS) :=
  let a := r.direction.lengthSquared
  if s.disc r < 0 then some (false, rec)
  else if a = 0 then none
  else
    let rts := s.roots sq r
    if I.surrounds rts.1 then
      if s.radius = 0 then none else some (true, some (s.record uv r rts.1))
    else if I.surrounds rts.2 then
      if s.radius = 0 then none else some (true, some (s.record uv r rts.2))
    else some (false, rec)

/-- `rtrace.assets.hittable.Quad` (stored attributes, as computed by
`Quad.__init__`). -/
structure Quad where
  center : Point3
  u : Vec3
  v : Vec3
  w : Vec3
  normal : Vec3
  D : ℚ
  mat : ℕ
  bbox : AABB
deriving DecidableEq

/-- `Quad.__init__` (with `math.sqrt` as `sq`, used by `unit_vector`).
In Python a degenerate `u × v = 0` raises at construction; callers below
only build non-degenerate quads. -/
def mkQuad (sq : ℚ → ℚ) (origin : Point3) (u v : Vec3) (mat : ℕ) : Quad :=
  let n := Vec3.cross u v
  let w := (1 / Vec3.dot n n) • n
  let normal := n.unitVector sq
  let D := Vec3.dot normal origin
  let bb1 := AABB.fromPoints origin (origin + u + v)
  let bb2 := AABB.fromPoints (origin + u) (origin + v)
  ⟨origin, u, v, w, normal, D, mat, AABB.fromBox bb1 bb2⟩

/-- `Quad.hit` (raises nothing: the near-parallel guard protects the only
division). -/
def Quad.hit (q : Quad) (r : Ray) (I : Interval) (rec : RecS) : Bool × RecS :=
  let denom := Vec3.dot q.normal r.direction
  if |denom| < 1/100000000 then (false, rec)
  else
    let t := (q.D - Vec3.dot q.normal r.origin) / denom
    if ¬ I.contains t then (false, rec)
    else
      let inter := r.at t
      let planar := inter - q.center
      let alpha := Vec3.dot q.w (Vec3.cross planar q.v)
      let beta := Vec3.dot q.w (Vec3.cross q.u planar)
      if ¬ (unitContains alpha ∧ unitContains beta) then (false, rec)
      else
        let fn := faceNormal r q.normal
        (true, some ⟨inter, fn.2, q.mat, t, alpha, beta, fn.1⟩)

/-- `rtrace.assets.hittable.Triangle` (stored attributes). -/
structure Triangle where
  v0 : Point3
  v1 : Point3
  v2 : Point3
  mat : ℕ
  bbox : AABB
deriving DecidableEq

/-- `Triangle.__init__`. -/
def mkTriangle (a b c : Point3) (mat : ℕ) : Triangle :=
  ⟨a, b, c, mat,
    ⟨⟨Min.min a.x (Min.min b.x c.x), Max.max a.x (Max.max b.x c.x)⟩,
     ⟨Min.min a.y (Min.min b.y c.y), Max.max a.y (Max.max b.y c.y)⟩,
     ⟨Min.min a.z (Min.min b.z c.z), Max.max a.z (Max.max b.z c.z)⟩⟩⟩

/-- `Triangle.hit` (Möller–Trumbore; the `abs(det)` guard protects the
division, and `cross e1 e2 = 0` would force `det = 0`, so the normal
normalization cannot divide by zero when the guard passes). -/
def Triangle.hit (sq : ℚ → ℚ) (tr : Triangle) (r : Ray) (I : Interval)
    (rec : RecS) : Bool × RecS :=
  let e1 := tr.v1 - tr.v0
  let e2 := tr.v2 - tr.v0
  let pvec := Vec3.cross r.direction e2
  let det := Vec3.dot pvec e1
  if |det| < 1/100000000 then (false, rec)
  else
    let invDet := 1 / det
    let tvec := r.origin - tr.v0
    let u := Vec3.dot pvec tvec * invDet
    if ¬ unitContains u then (false, rec)
    else
      let qvec := Vec3.cross tvec e1
      let v := Vec3.dot qvec r.direction * invDet
      if v < 0 ∨ u + v > 1 then (false, rec)
      else
        let t := Vec3.dot e2 qvec * invDet
        if ¬ I.contains t then (false, rec)
        else
          let fn := faceNormal r ((Vec3.cross e1 e2).unitVector sq)
          (true, some ⟨r.at t, fn.2, tr.mat, t, u, v, fn.1⟩)

/-- Whether a point lies (inclusively) inside an axis-aligned box. -/
def AABB.containsPoint (b : AABB) (p : Point3) : Prop :=
  b.x.min ≤ p.x ∧ p.x ≤ b.x.max ∧
  b.y.min ≤ p.y ∧ p.y ≤ b.y.max ∧
  b.z.min ≤ p.z ∧ p.z ≤ b.z.max

theorem Vec3.lengthSquared_nonneg (a : Vec3) : 0 ≤ a.lengthSquared := by
  unfold Vec3.lengthSquared
  nlinarith [mul_self_nonneg a.x, mul_self_nonneg a.y, mul_self_nonneg a.z]

/-- C5: with a nonzero direction (a ray is a half-line) and a nonzero
radius, `Sphere.hit` returns false on a negative discriminant; otherwise it
tries the smaller root first, falls back to the larger, both with the
exclusive interval test, and records the smallest root inside the search
interval; if both roots are outside it returns false and leaves the record
unchanged. -/
theorem C5_sphere_hit_records_smallest_root (sq : ℚ → ℚ) (uv : Vec3 → ℚ × ℚ)
    (s : Sphere) (r : Ray) (I : Interval) (rec : RecS)
    (hrad : s.radius ≠ 0) (hdir : r.direction.lengthSquared ≠ 0)
    (hsq : 0 ≤ sq (s.disc r)) :
    (s.disc r < 0 → s.hit sq uv r I rec = some (false, rec)) ∧
    (0 ≤ s.disc r →
      (I.surrounds (s.roots sq r).1 →
        s.hit sq uv r I rec
            = some (true, some (s.record uv r (s.roots sq r).1)) ∧
        ∀ t, (t = (s.roots sq r).1 ∨ t = (s.roots sq r).2) →
          (s.roots sq r).1 ≤ t) ∧
      (¬ I.surrounds (s.roots sq r).1 → I.surrounds (s.roots sq r).2 →
        s.hit sq uv r I rec
            = some (true, some (s.record uv r (s.roots sq r).2))) ∧
      (¬ I.surrounds (s.roots sq r).1 → ¬ I.surrounds (s.roots sq r).2 →
        s.hit sq uv r I rec = some (false, rec))) := by
  have ha : 0 < r.direction.lengthSquared :=
    lt_of_le_of_ne (Vec3.lengthSquared_nonneg _) (Ne.symm hdir)
  have hroots : (s.roots sq r).1 ≤ (s.roots sq r).2 := by
    unfold Sphere.roots
    dsimp only
    rw [div_le_div_iff₀ ha ha]
    nlinarith [mul_nonneg hsq ha.le]
  constructor
  · intro hneg
    unfold Sphere.hit
    rw [if_pos hneg]
  · intro hpos
    have hnneg : ¬ s.disc r < 0 := not_lt.mpr hpos
    refine ⟨?_, ?_, ?_⟩
    · intro h1
      constructor
      · unfold Sphere.hit
        rw [if_neg hnneg, if_neg hdir, if_pos h1, if_neg hrad]
      · intro t ht
        rcases ht with h | h
        · exact h ▸ le_refl _
        · exact h ▸ hroots
    · intro h1 h2
      unfold Sphere.hit
      rw [if_neg hnneg, if_neg hdir, if_neg h1, if_pos h2, if_neg hrad]
    · intro h1 h2
      unfold Sphere.hit
      rw [if_neg hnneg, if_neg hdir, if_neg h1, if_neg h2]

/-- A square root oracle valid at 1 (the only discriminant the witnesses
evaluate). -/
def sq5 : ℚ → ℚ := fun x => if x = 1 then 1 else 0

/-- A surface-coordinate oracle for witnesses. -/
def uv5 : Vec3 → ℚ × ℚ := fun _ => (0, 0)

/-- Unit sphere at (0,0,5). -/
def sphere5 : Sphere := mkSphere ⟨0, 0, 5⟩ 1 7

/-- Ray from the origin along +z. -/
def ray5 : Ray := ⟨⟨0, 0, 0⟩, ⟨0, 0, 1⟩⟩

theorem sphere5_disc : Sphere.disc sphere5 ray5 = 1 := by
  norm_num [Sphere.disc, sphere5, ray5, mkSphere, Vec3.lengthSquared, Vec3.dot]

theorem sphere5_roots : Sphere.roots sq5 sphere5 ray5 = (4, 6) := by
  unfold Sphere.roots
  rw [sphere5_disc]
  norm_num [sphere5, ray5, mkSphere, sq5, Vec3.lengthSquared, Vec3.dot]

theorem iEps_surrounds_four : iEps.surrounds 4 := by
  refine ⟨?_, XQ.lt_pinf 4⟩
  rw [iEps, XQ.fin_lt_fin]
  norm_num

theorem C5_witness :
    Sphere.hit sq5 uv5 sphere5 ray5 iEps none
      = some (true, some (Sphere.record sphere5 uv5 ray5
          (Sphere.roots sq5 sphere5 ray5).1)) := by
  have h := C5_sphere_hit_records_smallest_root sq5 uv5 sphere5 ray5 iEps none
    (by norm_num [sphere5, mkSphere])
    (by norm_num [ray5, Vec3.lengthSquared])
    (by rw [sphere5_disc]; norm_num [sq5])
  exact ((h.2 (by rw [sphere5_disc]; norm_num)).1
    (by rw [sphere5_roots]; exact iEps_surrounds_four)).1

@[simp] theorem Sphere.record_t (s : Sphere) (uv : Vec3 → ℚ × ℚ) (r : Ray)
    (root : ℚ) : (s.record uv r root).t = root := rfl

/-- C6 (amended): the sphere root test is the exclusive `surrounds`, while
both the quad and the triangle parameter tests are the inclusive
`contains` (the claim said triangles use the exclusive form; the
counterexample shows a triangle hit accepted exactly at the interval
maximum). -/
theorem C6_amended_interval_test_forms (sq : ℚ → ℚ) (uv : Vec3 → ℚ × ℚ) :
    (∀ (s : Sphere) (r : Ray) (I : Interval) (rec rec' : RecS),
        s.hit sq uv r I rec = some (true, rec') →
        ∃ rc, rec' = some rc ∧ I.surrounds rc.t) ∧
    (∀ (q : Quad) (r : Ray) (I : Interval) (rec rec' : RecS),
        q.hit r I rec = (true, rec') →
        ∃ rc, rec' = some rc ∧ I.contains rc.t) ∧
    (∀ (tr : Triangle) (r : Ray) (I : Interval) (rec rec' : RecS),
        tr.hit sq r I rec = (true, rec') →
        ∃ rc, rec' = some rc ∧ I.contains rc.t) := by
  refine ⟨?_, ?_, ?_⟩
  · intro s r I rec rec' h
    simp only [Sphere.hit] at h
    split_ifs at h with h1 h2 h3 h4 h5 h6 <;>
      first
        | (simp at h; done)
        | (simp only [Option.some.injEq, Prod.mk.injEq, true_and] at h
           exact ⟨_, h.symm, by simp only [Sphere.record_t]; assumption⟩)
  · intro q r I rec rec' h
    simp only [Quad.hit] at h
    split_ifs at h with h1 h2 h3 <;>
      first
        | (simp at h; done)
        | (simp only [Prod.mk.injEq, true_and] at h
           exact ⟨_, h.symm, by assumption⟩)
  · intro tr r I rec rec' h
    simp only [Triangle.hit] at h
    split_ifs at h with h1 h2 h3 h4 <;>
      first
        | (simp at h; done)
        | (simp only [Prod.mk.injEq, true_and] at h
           exact ⟨_, h.symm, by assumption⟩)

/-- Square-root oracle valid at 16 (the squared normal length of the
counterexample triangle). -/
def sq16 : ℚ → ℚ := fun x => if x = 16 then 4 else 0

/-- Counterexample triangle in the plane z = 1. -/
def triC6 : Triangle := mkTriangle ⟨0, 0, 1⟩ ⟨2, 0, 1⟩ ⟨0, 2, 1⟩ 3

/-- Ray from the origin along +z. -/
def rayZ : Ray := ⟨⟨0, 0, 0⟩, ⟨0, 0, 1⟩⟩

/-- The search interval [0, 1]. -/
def i01 : Interval := ⟨XQ.fin 0, XQ.fin 1⟩

/-- C6 (counterexample): the triangle parameter test is inclusive: a hit
with t exactly at the interval maximum is accepted, where the claimed
exclusive `surrounds` test would reject it. -/
theorem C6_counterexample_triangle_accepts_interval_max :
    Triangle.hit sq16 triC6 rayZ i01 none
        = (true, some ⟨⟨0, 0, 1⟩, ⟨0, 0, -1⟩, 3, 1, 0, 0, false⟩) ∧
    ¬ Interval.surrounds i01 1 := by
  constructor
  · norm_num [Triangle.hit, mkTriangle, triC6, rayZ, i01, sq16, Vec3.cross,
      Vec3.dot, Vec3.unitVector, Vec3.lengthSquared, unitContains,
      Interval.contains, faceNormal, Ray.at, XQ.fin_le_fin]
  · simp [Interval.surrounds, i01, XQ.fin_lt_fin]

/-- C6 witness for the amended theorem: instantiates the sphere conjunct
on the concrete sphere hit and the triangle conjunct on the concrete
triangle hit. -/
theorem C6_witness :
    (∃ rc, some (Sphere.record sphere5 uv5 ray5 (Sphere.roots sq5 sphere5 ray5).1)
        = some rc ∧ iEps.surrounds rc.t) ∧
    (∃ rc, some (HitRecord.mk ⟨0, 0, 1⟩ ⟨0, 0, -1⟩ 3 1 0 0 false) = some rc ∧
        i01.contains rc.t) := by
  have hs : Sphere.hit sq5 uv5 sphere5 ray5 iEps none
      = some (true, some (Sphere.record sphere5 uv5 ray5
          (Sphere.roots sq5 sphere5 ray5).1)) := by
    have h := C5_sphere_hit_records_smallest_root sq5 uv5 sphere5 ray5 iEps none
      (by norm_num [sphere5, mkSphere])
      (by norm_num [ray5, Vec3.lengthSquared])
      (by rw [sphere5_disc]; norm_num [sq5])
    exact ((h.2 (by rw [sphere5_disc]; norm_num)).1
      (by rw [sphere5_roots]; exact iEps_surrounds_four)).1
  have ht : Triangle.hit sq16 triC6 rayZ i01 none
      = (true, some ⟨⟨0, 0, 1⟩, ⟨0, 0, -1⟩, 3, 1, 0, 0, false⟩) := by
    norm_num [Triangle.hit, mkTriangle, triC6, rayZ, i01, sq16, Vec3.cross,
      Vec3.dot, Vec3.unitVector, Vec3.lengthSquared, unitContains,
      Interval.contains, faceNormal, Ray.at, XQ.fin_le_fin]
  exact ⟨(C6_amended_interval_test_forms sq5 uv5).1 sphere5 ray5 iEps none _ hs,
    (C6_amended_interval_test_forms sq16 uv5).2.2 triC6 rayZ i01 none _ ht⟩

/-- Sphere of radius 1 centered away from the origin. -/
def sphereOff : Sphere := mkSphere ⟨10, 0, 0⟩ 1 2

/-- C7: `Sphere.__init__` builds the bounding box from `-rvec` and `rvec`
alone, ignoring the center, so the surface point (11,0,0) of the sphere
centered at (10,0,0) lies outside its own bounding box. -/
theorem C7_sphere_bbox_ignores_center :
    sphereOff.bbox = ⟨⟨-1, 1⟩, ⟨-1, 1⟩, ⟨-1, 1⟩⟩ ∧
    (Vec3.mk 11 0 0 - sphereOff.center).lengthSquared
        = sphereOff.radius * sphereOff.radius ∧
    ¬ sphereOff.bbox.containsPoint ⟨11, 0, 0⟩ := by
  refine ⟨?_, ?_, ?_⟩
  · norm_num [sphereOff, mkSphere, AABB.fromPoints]
  · norm_num [sphereOff, mkSphere, Vec3.lengthSquared]
  · norm_num [sphereOff, mkSphere, AABB.fromPoints, AABB.containsPoint]

/-- Scene primitives (spheres and quads, the shapes the BVH claims range
over). -/
inductive Prim where
  | sphere (s : Sphere) : Prim
  | quad (q : Quad) : Prim
deriving DecidableEq

/-- Dynamic dispatch of `Hittable.hit` on a primitive. -/
def Prim.hit (sq : ℚ → ℚ) (uv : Vec3 → ℚ × ℚ) :
    Prim → Ray → Interval → RecS → Option (Bool × RecS)
  | .sphere s => s.hit sq uv
  | .quad q => fun r I rec => some (q.hit r I rec)

/-- The `bbox` attribute of a primitive. -/
def Prim.bbox : Prim → AABB
  | .sphere s => s.bbox
  | .quad q => q.bbox

/-- One iteration of the closest-hit scan loop shared by `Scene.hit` and
`HittableList.hit`: state is `(hit_anything, temp_rec, ray_t)`; on a hit
the interval max is shrunk to the recorded `t` (`ray_t.max =
temp_rec.t`). -/
def scanStep (sq : ℚ → ℚ) (uv : Vec3 → ℚ × ℚ) (r : Ray)
    (st : Bool × RecS × Interval) (p : Prim) : Option (Bool × RecS × Interval) :=
  match p.hit sq uv r st.2.2 st.2.1 with
  | none => none
  | some (true, some rc) => some (true, some rc, ⟨st.2.2.min, XQ.fin rc.t⟩)
  | some (true, none) => none
  | some (false, rec') => some (st.1, rec', st.2.2)

/-- The scan loop over the asset list. -/
def scanPrims (sq : ℚ → ℚ) (uv : Vec3 → ℚ × ℚ) (r : Ray) :
    List Prim → (Bool × RecS × Interval) → Option (Bool × RecS × Interval)
  | [], st => some st
  | p :: rest, st =>
    match scanStep sq uv r st p with
    | none => none
    | some st' => scanPrims sq uv r rest st'

/-- `Scene.hit`: the scan with a fresh temp record; the caller's record is
overwritten (by the repeated `copy_data`) exactly when something was hit.
Result is `(hit_anything, caller record after the call, ray_t after the
call)`. -/
def sceneHit (sq : ℚ → ℚ) (uv : Vec3 → ℚ × ℚ) (r : Ray) (assets : List Prim)
    (I : Interval) (rec : RecS) : Option (Bool × RecS × Interval) :=
  match scanPrims sq uv r assets (false, none, I) with
  | none => none
  | some (b, temp, I') => some (b, if b then temp else rec, I')

/-- The bounding box accumulated by `HittableList.add_asset` (the first
asset initializes it, then each asset is unioned in; `none` = no asset was
ever added, so the attribute does not exist). -/
def listBbox : List Prim → Option AABB
  | [] => none
  | p :: ps => some (ps.foldl (fun b q => AABB.fromBox b q.bbox)
      (AABB.fromBox p.bbox p.bbox))

/-- `HittableList.hit` without BVH: the union-bbox gate followed by the
same scan loop as `Scene.hit`. -/
def hittableListHit (sq : ℚ → ℚ) (uv : Vec3 → ℚ × ℚ) (r : Ray)
    (assets : List Prim) (I : Interval) (rec : RecS) :
    Option (Bool × RecS × Interval) :=
  match listBbox assets with
  | none => none
  | some bb =>
    match bb.hit r I with
    | none => none
    | some false => some (false, rec, I)
    | some true => sceneHit sq uv r assets I rec

/-- A scan state in which a positive flag always comes with a record whose
`t` is the current interval max. -/
def GoodState (st : Bool × RecS × Interval) : Prop :=
  st.1 = true → ∃ rc, st.2.1 = some rc ∧ st.2.2.max = XQ.fin rc.t

theorem sphere_hit_false_rec (sq : ℚ → ℚ) (uv : Vec3 → ℚ × ℚ) (s : Sphere)
    (r : Ray) (I : Interval) (rec rec' : RecS)
    (h : s.hit sq uv r I rec = some (false, rec')) : rec' = rec := by
  simp only [Sphere.hit] at h
  split_ifs at h <;> simp_all

theorem quad_hit_false_rec (q : Quad) (r : Ray) (I : Interval) (rec rec' : RecS)
    (h : q.hit r I rec = (false, rec')) : rec' = rec := by
  simp only [Quad.hit] at h
  split_ifs at h <;> simp_all


theorem prim_hit_false_rec (sq : ℚ → ℚ) (uv : Vec3 → ℚ × ℚ) (p : Prim)
    (r : Ray) (I : Interval) (rec rec' : RecS)
    (h : p.hit sq uv r I rec = some (false, rec')) : rec' = rec := by
  cases p with
  | sphere s => exact sphere_hit_false_rec sq uv s r I rec rec' h
  | quad q =>
    simp only [Prim.hit, Option.some_inj] at h
    exact quad_hit_false_rec q r I rec rec' h

theorem scanStep_props (sq : ℚ → ℚ) (uv : Vec3 → ℚ × ℚ) (r : Ray)
    (st st' : Bool × RecS × Interval) (p : Prim)
    (h : scanStep sq uv r st p = some st') :
    st'.2.2.min = st.2.2.min ∧ (GoodState st → GoodState st') ∧
      (st'.1 = false → st' = st) := by
  obtain ⟨b0, rec0, I0⟩ := st
  unfold scanStep at h
  revert h
  match hres : p.hit sq uv r (b0, rec0, I0).2.2 (b0, rec0, I0).2.1 with
  | none => intro h; cases h
  | some (true, some rc) =>
    intro h
    rw [Option.some_inj] at h
    subst h
    refine ⟨rfl, ?_, ?_⟩
    · intro _ _
      exact ⟨rc, rfl, rfl⟩
    · intro hfalse
      cases hfalse
  | some (true, none) => intro h; cases h
  | some (false, rec') =>
    intro h
    rw [Option.some_inj] at h
    subst h
    have hrr : rec' = rec0 := prim_hit_false_rec sq uv p r I0 rec0 rec' hres
    cases hrr
    exact ⟨rfl, fun hg => hg, fun _ => rfl⟩

theorem scanPrims_props (sq : ℚ → ℚ) (uv : Vec3 → ℚ × ℚ) (r : Ray)
    (ps : List Prim) :
    ∀ st st', scanPrims sq uv r ps st = some st' →
      st'.2.2.min = st.2.2.min ∧ (GoodState st → GoodState st') ∧
        (st'.1 = false → st' = st) := by
  induction ps with
  | nil =>
    intro st st' h
    rw [scanPrims, Option.some_inj] at h
    subst h
    exact ⟨rfl, fun g => g, fun _ => rfl⟩
  | cons p rest ih =>
    intro st st' h
    rw [scanPrims] at h
    revert h
    match hstep : scanStep sq uv r st p with
    | none => intro h; cases h
    | some st1 =>
      intro h
      obtain ⟨hmin1, hg1, hf1⟩ := scanStep_props sq uv r st st1 p hstep
      obtain ⟨hmin2, hg2, hf2⟩ := ih st1 st' h
      refine ⟨hmin2.trans hmin1, fun g => hg2 (hg1 g), ?_⟩
      intro hb
      have e1 := hf2 hb
      rw [e1] at hb ⊢
      exact hf1 hb

theorem sceneHit_props (sq : ℚ → ℚ) (uv : Vec3 → ℚ × ℚ) (r : Ray)
    (assets : List Prim) (I : Interval) (rec : RecS) (b : Bool) (rec' : RecS)
    (I' : Interval) (h : sceneHit sq uv r assets I rec = some (b, rec', I')) :
    I'.min = I.min ∧ (b = true → ∃ rc, rec' = some rc ∧ I'.max = XQ.fin rc.t) ∧
      (b = false → I' = I ∧ rec' = rec) := by
  unfold sceneHit at h
  revert h
  match hscan : scanPrims sq uv r assets (false, none, I) with
  | none => intro h; cases h
  | some (b0, temp, I0) =>
    intro h
    rw [Option.some_inj] at h
    injection h with h1 h2
    injection h2 with h2 h3
    subst h1
    subst h2
    subst h3
    obtain ⟨hmin, hgood, hfalse⟩ :=
      scanPrims_props sq uv r assets (false, none, I) (b0, temp, I0) hscan
    have gfin := hgood (fun hfb => absurd hfb Bool.false_ne_true)
    refine ⟨hmin, ?_, ?_⟩
    · intro hb
      obtain ⟨rc, hrc, hmax⟩ := gfin hb
      exact ⟨rc, by rw [hb]; exact hrc, hmax⟩
    · intro hb
      have e := hfalse hb
      injection e with e1 e2
      injection e2 with e2 e3
      subst e3
      refine ⟨rfl, ?_⟩
      rw [hb]
      rfl

/-- C10: `Scene.hit` and `HittableList.hit` shrink the caller-supplied
interval's max to the recorded `t` on every accepted hit.  When the call
returns true, the final `ray_t.max` equals the returned record's `t`; when
it returns false (including via the bbox gate of `HittableList.hit`) the
interval — and the caller's record — are unchanged; the interval's min is
never touched. -/
theorem C10_hit_mutates_interval_max_only (sq : ℚ → ℚ) (uv : Vec3 → ℚ × ℚ)
    (r : Ray) (assets : List Prim) (I : Interval) (rec : RecS) :
    (∀ b rec' I', sceneHit sq uv r assets I rec = some (b, rec', I') →
      I'.min = I.min ∧ (b = true → ∃ rc, rec' = some rc ∧ I'.max = XQ.fin rc.t) ∧
      (b = false → I' = I ∧ rec' = rec)) ∧
    (∀ b rec' I', hittableListHit sq uv r assets I rec = some (b, rec', I') →
      I'.min = I.min ∧ (b = true → ∃ rc, rec' = some rc ∧ I'.max = XQ.fin rc.t) ∧
      (b = false → I' = I ∧ rec' = rec)) := by
  refine ⟨fun b rec' I' h => sceneHit_props sq uv r assets I rec b rec' I' h, ?_⟩
  intro b rec' I' h
  unfold hittableListHit at h
  match hbb : listBbox assets with
  | none => rw [hbb] at h; cases h
  | some bb =>
    rw [hbb] at h
    dsimp only at h
    match hgate : AABB.hit bb r I with
    | none => rw [hgate] at h; cases h
    | some false =>
      rw [hgate] at h
      have h' : (some (false, rec, I) : Option (Bool × RecS × Interval))
          = some (b, rec', I') := h
      rw [Option.some_inj] at h'
      injection h' with h1 h2
      injection h2 with h2 h3
      subst h1; subst h2; subst h3
      exact ⟨rfl, fun hb => absurd hb Bool.false_ne_true, fun _ => ⟨rfl, rfl⟩⟩
    | some true =>
      rw [hgate] at h
      exact sceneHit_props sq uv r assets I rec b rec' I' h

/-- Direct evaluation of the concrete sphere hit used by witnesses. -/
theorem sphere5_hit_eval :
    Sphere.hit sq5 uv5 sphere5 ray5 iEps none
      = some (true, some (Sphere.record sphere5 uv5 ray5 4)) := by
  simp only [Sphere.hit]
  rw [sphere5_disc, sphere5_roots]
  norm_num [iEps_surrounds_four, sphere5, mkSphere, ray5, Vec3.lengthSquared]

/-- The single-sphere scene used by witnesses. -/
def assets1 : List Prim := [Prim.sphere sphere5]

theorem sceneHit_assets1_eval :
    sceneHit sq5 uv5 ray5 assets1 iEps none
      = some (true, some (Sphere.record sphere5 uv5 ray5 4),
          ⟨iEps.min, XQ.fin 4⟩) := by
  unfold sceneHit assets1 scanPrims scanStep
  rw [show Prim.hit sq5 uv5 (Prim.sphere sphere5) ray5 iEps none
      = some (true, some (Sphere.record sphere5 uv5 ray5 4)) from sphere5_hit_eval]
  simp [scanPrims]

/-- C10 witness: on the single-sphere scene the interval comes back with
min unchanged and max shrunk to the recorded `t`. -/
theorem C10_witness :
    (Interval.mk iEps.min (XQ.fin 4)).min = iEps.min ∧
      (∃ rc, (some (Sphere.record sphere5 uv5 ray5 4) : RecS) = some rc ∧
        (Interval.mk iEps.min (XQ.fin 4)).max = XQ.fin rc.t) := by
  have h := (C10_hit_mutates_interval_max_only sq5 uv5 ray5 assets1 iEps none).1
    true (some (Sphere.record sphere5 uv5 ray5 4)) ⟨iEps.min, XQ.fin 4⟩
    sceneHit_assets1_eval
  exact ⟨h.1, h.2.1 rfl⟩

instance : Mul Vec3 := ⟨fun a b => ⟨a.x * b.x, a.y * b.y, a.z * b.z⟩⟩

@[simp] theorem Vec3.mul_def (a b : Vec3) :
    a * b = ⟨a.x * b.x, a.y * b.y, a.z * b.z⟩ := rfl

/-- `rtrace.scene.Scene`: the asset list plus the skybox's `get_color`
as an oracle. -/
structure PScene where
  assets : List Prim
  skybox : Ray → Vec3

/-- `Scene.r_ray_color`.  `scat` is `Material.scatter` (returning the
attenuation and the scattered ray, or `none` when the material declines);
`emit` is `Material.emitted`.  The bounce bookkeeping is exactly the
source's: `limit` stays constant, `depth` counts up, and the guard is
`limit < depth`. -/
def rRayColor (sq : ℚ → ℚ) (uv : Vec3 → ℚ × ℚ)
    (scat : ℕ → Ray → HitRecord → Option (Vec3 × Ray))
    (emit : ℕ → ℚ → ℚ → Point3 → Vec3) (sc : PScene) (r : Ray) (rec : RecS)
    (limit depth : ℕ) : Option Vec3 :=
  if limit < depth then some ⟨0, 0, 0⟩
  else
    match sceneHit sq uv r sc.assets ⟨XQ.fin (1/1000), XQ.pinf⟩ rec with
    | none => none
    | some (false, _, _) => some (sc.skybox r)
    | some (true, none, _) => none
    | some (true, some rc, _) =>
      let fromEmission := emit rc.mat rc.u rc.v rc.p
      match scat rc.mat r rc with
      | none => some fromEmission
      | some (att, scattered) =>
        match rRayColor sq uv scat emit sc scattered (some rc) limit (depth + 1) with
        | none => none
        | some cnext => some (att * cnext + fromEmission)
  termination_by limit + 1 - depth
  decreasing_by simp_wf; omega

/-- The number of `r_ray_color` evaluations performed (the call itself
plus all recursive calls), mirroring the branching of `rRayColor`. -/
def rRayCalls (sq : ℚ → ℚ) (uv : Vec3 → ℚ × ℚ)
    (scat : ℕ → Ray → HitRecord → Option (Vec3 × Ray))
    (emit : ℕ → ℚ → ℚ → Point3 → Vec3) (sc : PScene) (r : Ray) (rec : RecS)
    (limit depth : ℕ) : ℕ :=
  if limit < depth then 1
  else
    match sceneHit sq uv r sc.assets ⟨XQ.fin (1/1000), XQ.pinf⟩ rec with
    | none => 1
    | some (false, _, _) => 1
    | some (true, none, _) => 1
    | some (true, some rc, _) =>
      match scat rc.mat r rc with
      | none => 1
      | some (_, scattered) =>
        1 + rRayCalls sq uv scat emit sc scattered (some rc) limit (depth + 1)
  termination_by limit + 1 - depth
  decreasing_by simp_wf; omega

theorem rRayCalls_bound (sq : ℚ → ℚ) (uv : Vec3 → ℚ × ℚ)
    (scat : ℕ → Ray → HitRecord → Option (Vec3 × Ray))
    (emit : ℕ → ℚ → ℚ → Point3 → Vec3) (sc : PScene) (limit : ℕ) :
    ∀ (n : ℕ) (r : Ray) (rec : RecS) (depth : ℕ), limit + 1 - depth ≤ n →
      rRayCalls sq uv scat emit sc r rec limit depth ≤ 1 + (limit + 1 - depth) := by
  intro n
  induction n with
  | zero =>
    intro r rec depth hle
    rw [rRayCalls, if_pos (by omega)]
    omega
  | succ n ih =>
    intro r rec depth hle
    rw [rRayCalls]
    by_cases hld : limit < depth
    · rw [if_pos hld]; omega
    · rw [if_neg hld]
      cases hsh : sceneHit sq uv r sc.assets ⟨XQ.fin (1/1000), XQ.pinf⟩ rec with
      | none => dsimp only; omega
      | some st =>
        obtain ⟨b, recx, Ix⟩ := st
        cases b with
        | false => dsimp only; omega
        | true =>
          cases recx with
          | none => dsimp only; omega
          | some rc =>
            cases hsc : scat rc.mat r rc with
            | none => dsimp only; rw [hsc]; dsimp only; omega
            | some pr =>
              obtain ⟨att, scd⟩ := pr
              dsimp only
              rw [hsc]
              dsimp only
              have := ih scd (some rc) (depth + 1) (by omega)
              omega

/-- C4 (amended): the light-transport recursion terminates (`rRayColor`
is total by well-founded recursion on `limit + 1 - depth`); the code's
counter is an up-counting `depth` against a constant `limit` — the
equivalent of decrementing a remaining-bounce budget — and the integrator
returns black as soon as `depth` exceeds `limit` (not when the budget
reaches zero: one extra bounce level runs); the total number of
evaluations from the top of the recursion is at most `limit + 2`. -/
theorem C4_amended_recursion_bounded (sq : ℚ → ℚ) (uv : Vec3 → ℚ × ℚ)
    (scat : ℕ → Ray → HitRecord → Option (Vec3 × Ray))
    (emit : ℕ → ℚ → ℚ → Point3 → Vec3) (sc : PScene) (limit : ℕ) :
    (∀ (r : Ray) (rec : RecS) (depth : ℕ), limit < depth →
        rRayColor sq uv scat emit sc r rec limit depth = some ⟨0, 0, 0⟩) ∧
    (∀ (r : Ray) (rec : RecS),
        rRayCalls sq uv scat emit sc r rec limit 0 ≤ limit + 2) := by
  constructor
  · intro r rec depth hld
    rw [rRayColor, if_pos hld]
  · intro r rec
    have := rRayCalls_bound sq uv scat emit sc limit (limit + 1) r rec 0 (by omega)
    omega

/-- Oracles and scene for the C4 witness and counterexample: no assets, a
white skybox, a never-scattering material. -/
def scWhite : PScene := ⟨[], fun _ => ⟨1, 1, 1⟩⟩

/-- Never-scattering material oracle. -/
def scat0 : ℕ → Ray → HitRecord → Option (Vec3 × Ray) := fun _ _ _ => none

/-- Black emission oracle. -/
def emit0 : ℕ → ℚ → ℚ → Point3 → Vec3 := fun _ _ _ _ => ⟨0, 0, 0⟩

/-- C4 witness: at depth `limit + 1` the integrator returns black, and the
top-level call count is within `limit + 2`. -/
theorem C4_witness :
    rRayColor sq5 uv5 scat0 emit0 scWhite rayZ none 0 1 = some ⟨0, 0, 0⟩ ∧
      rRayCalls sq5 uv5 scat0 emit0 scWhite rayZ none 0 0 ≤ 2 := by
  have h := C4_amended_recursion_bounded sq5 uv5 scat0 emit0 scWhite 0
  exact ⟨h.1 rayZ none 1 (by omega), h.2 rayZ none⟩

/-- C4 (counterexample): with the bounce limit already zero the claim says
the integrator returns black; the code's guard is `limit < depth`, so at
`limit = 0, depth = 0` it still traces the ray and returns the (white)
skybox color. -/
theorem C4_counterexample_limit_zero_not_black :
    rRayColor sq5 uv5 scat0 emit0 scWhite rayZ none 0 0 = some ⟨1, 1, 1⟩ ∧
      (Vec3.mk 1 1 1) ≠ ⟨0, 0, 0⟩ := by
  constructor
  · rw [rRayColor]
    norm_num [sceneHit, scanPrims, scWhite]
  · intro h
    cases h

/-- A PIL image as a pixel map; `none` = never written (the initial black
background). -/
def PImage (Pix : Type) := ℕ × ℕ → Option Pix

/-- `Image.putpixel`. -/
def putpixel {Pix : Type} (im : PImage Pix) (p : ℕ × ℕ) (c : Pix) : PImage Pix :=
  fun q => if q = p then some c else im q

/-- The camera/scene data the two render loops consume.  `rayColor i j
iter` stands for `scene.ray_color(get_ray(i, j, iter), recursion_limit)`
(identical in both paths; the claim grants identical per-sample offsets,
so `get_ray` is a deterministic function of `(i, j, iter)`), and `quant`
stands for `(pixel_color * sample_scale).as_tuple(256)`. -/
structure RenderEnv (Color Pix : Type) where
  W : ℕ
  H : ℕ
  samples : ℕ
  zero : Color
  add : Color → Color → Color
  rayColor : ℕ → ℕ → ℕ → Color
  quant : Color → Pix

/-- The per-pixel body shared verbatim by `render_mono` and
`_render_block`: `for iter in range(samples): pixel_color +=
ray_color(get_ray(x, y, iter))`, then quantize. -/
def pixelValue {C P : Type} (env : RenderEnv C P) (i j : ℕ) : P :=
  env.quant ((List.range env.samples).foldl
    (fun acc iter => env.add acc (env.rayColor i j iter)) env.zero)

/-- `Camera.render_mono` (with `filter = None`): note the source assigns
`width, height = self.img_width, self.img_width` — both locals get the
image *width* — and then decomposes `x, y = i % width, i // height`. -/
def renderMono {C P : Type} (env : RenderEnv C P) : PImage P :=
  (List.range (env.W * env.H)).foldl
    (fun im i =>
      let width := env.W
      let height := env.W
      let x := i % width
      let y := i / height
      putpixel im (x, y) (pixelValue env x y))
    (fun _ => none)

/-- `Camera._render_block` for the block `[x0, x1) × [y0, y1)`: a local
image indexed from (0,0), sampled at the offset pixel. -/
def renderBlock {C P : Type} (env : RenderEnv C P) (x0 x1 y0 y1 : ℕ) :
    PImage P :=
  (List.range ((x1 - x0) * (y1 - y0))).foldl
    (fun im i =>
      let bw := x1 - x0
      let x := i % bw
      let y := i / bw
      putpixel im (x, y) (pixelValue env (x + x0) (y + y0)))
    (fun _ => none)

/-- `Image.paste(block, (x0, y0))` for a block of size `bw × bh`. -/
def pasteBlock {P : Type} (im : PImage P) (x0 y0 bw bh : ℕ) (blk : PImage P) :
    PImage P :=
  fun q =>
    if x0 ≤ q.1 ∧ q.1 < x0 + bw ∧ y0 ≤ q.2 ∧ q.2 < y0 + bh then
      blk (q.1 - x0, q.2 - y0)
    else im q

/-- `ceil(n / _MULTIPROCESS_BLOCK_SIZE)` with block size 16. -/
def ceil16 (n : ℕ) : ℕ := (n + 15) / 16

/-- `Camera.render_multi` (with `filter = None`): the statically
partitioned block list `(blc_y outer, blc_x inner)`, each block rendered
independently and pasted at its own offset.  `pool.starmap` preserves the
argument order, so the paste sequence is the generation sequence (and the
blocks are disjoint, so order is irrelevant). -/
def renderMulti {C P : Type} (env : RenderEnv C P) : PImage P :=
  (List.range (ceil16 env.H)).foldl
    (fun im blcY =>
      (List.range (ceil16 env.W)).foldl
        (fun im blcX =>
          let x0 := blcX * 16
          let x1 := Min.min ((blcX + 1) * 16) env.W
          let y0 := blcY * 16
          let y1 := Min.min ((blcY + 1) * 16) env.H
          pasteBlock im x0 y0 (x1 - x0) (y1 - y0) (renderBlock env x0 x1 y0 y1))
        im)
    (fun _ => none)

theorem putpixel_same {P : Type} (im : PImage P) (p : ℕ × ℕ) (c : P) :
    putpixel im p c p = some c := by
  unfold putpixel
  rw [if_pos rfl]

theorem putpixel_other {P : Type} (im : PImage P) (p q : ℕ × ℕ) (c : P)
    (h : q ≠ p) : putpixel im p c q = im q := by
  unfold putpixel
  rw [if_neg h]

theorem rowMajor_key (W i x y : ℕ) (hx : x < W) :
    (i % W, i / W) = ((x, y) : ℕ × ℕ) ↔ i = y * W + x := by
  have hW : 0 < W := Nat.pos_of_ne_zero (by omega)
  constructor
  · intro h
    injection h with h1 h2
    have hdm := Nat.div_add_mod i W
    rw [h1, h2] at hdm
    rw [Nat.mul_comm] at hdm
    omega
  · intro h
    subst h
    have h1 : (y * W + x) % W = x := by
      rw [Nat.add_comm (y * W) x, Nat.add_mul_mod_self_right]
      exact Nat.mod_eq_of_lt hx
    have h2 : (y * W + x) / W = y := by
      rw [Nat.add_comm (y * W) x, Nat.add_mul_div_right _ _ hW,
        Nat.div_eq_of_lt hx]
      omega
    rw [h1, h2]

/-- The generic row-major write loop: pixel `(x, y)` ends up holding the
value written at index `y * W + x`. -/
theorem rowMajorWrites_lookup {P : Type} (W : ℕ) (f : ℕ → ℕ → P) :
    ∀ (N x y : ℕ), x < W → y * W + x < N →
      ((List.range N).foldl
        (fun im i => putpixel im (i % W, i / W) (f (i % W) (i / W)))
        (fun _ => none) : PImage P) (x, y) = some (f x y) := by
  intro N
  induction N with
  | zero => intro x y hx hlt; omega
  | succ N ih =>
    intro x y hx hlt
    rw [List.range_succ, List.foldl_append]
    simp only [List.foldl_cons, List.foldl_nil]
    by_cases heq : N = y * W + x
    · have hkey := (rowMajor_key W N x y hx).mpr heq
      injection hkey with hk1 hk2
      rw [hk1, hk2]
      exact putpixel_same _ _ _
    · have hne : ((x, y) : ℕ × ℕ) ≠ (N % W, N / W) := by
        intro hcon
        exact heq ((rowMajor_key W N x y hx).mp hcon.symm)
      rw [putpixel_other _ _ _ _ hne]
      exact ih x y hx (by omega)

theorem rowmajor_lt {W H x y : ℕ} (hx : x < W) (hy : y < H) :
    y * W + x < W * H := by
  have hs : (y + 1) * W = y * W + W := by ring
  have hm : (y + 1) * W ≤ H * W := Nat.mul_le_mul_right _ (by omega)
  have hc : H * W = W * H := Nat.mul_comm H W
  omega

theorem renderMono_lookup {C P : Type} (env : RenderEnv C P) (x y : ℕ)
    (hx : x < env.W) (hy : y < env.H) :
    renderMono env (x, y) = some (pixelValue env x y) :=
  rowMajorWrites_lookup env.W (fun a b => pixelValue env a b)
    (env.W * env.H) x y hx (rowmajor_lt hx hy)

theorem renderBlock_lookup {C P : Type} (env : RenderEnv C P)
    (x0 x1 y0 y1 lx ly : ℕ) (hx : lx < x1 - x0) (hy : ly < y1 - y0) :
    renderBlock env x0 x1 y0 y1 (lx, ly)
      = some (pixelValue env (lx + x0) (ly + y0)) :=
  rowMajorWrites_lookup (x1 - x0) (fun a b => pixelValue env (a + x0) (b + y0))
    ((x1 - x0) * (y1 - y0)) lx ly hx (rowmajor_lt hx hy)

/-- One pass of the inner (`blc_x`) loop of `render_multi` for the block
row `blcY`. -/
def rowStep {C P : Type} (env : RenderEnv C P) (blcY : ℕ) :
    PImage P → ℕ → PImage P :=
  fun im blcX =>
    let x0 := blcX * 16
    let x1 := Min.min ((blcX + 1) * 16) env.W
    let y0 := blcY * 16
    let y1 := Min.min ((blcY + 1) * 16) env.H
    pasteBlock im x0 y0 (x1 - x0) (y1 - y0) (renderBlock env x0 x1 y0 y1)

theorem rowStep_untouched {C P : Type} (env : RenderEnv C P) (blcY : ℕ) :
    ∀ (n : ℕ) (im : PImage P) (x y : ℕ),
      (n * 16 ≤ x ∨ y < blcY * 16 ∨ Min.min ((blcY + 1) * 16) env.H ≤ y) →
      ((List.range n).foldl (rowStep env blcY) im) (x, y) = im (x, y) := by
  intro n
  induction n with
  | zero => intro im x y _; rfl
  | succ n ih =>
    intro im x y h
    rw [List.range_succ, List.foldl_append]
    simp only [List.foldl_cons, List.foldl_nil]
    show (rowStep env blcY ((List.range n).foldl (rowStep env blcY) im) n) (x, y)
      = im (x, y)
    unfold rowStep pasteBlock
    set Mx := Min.min ((n + 1) * 16) env.W with hMxdef
    set My := Min.min ((blcY + 1) * 16) env.H with hMydef
    have hMx1 : Mx ≤ (n + 1) * 16 := by rw [hMxdef]; exact Nat.min_le_left _ _
    rcases h with h | h | h
    · rw [if_neg (by dsimp only; omega)]
      exact ih im x y (Or.inl (by omega))
    · rw [if_neg (by dsimp only; omega)]
      exact ih im x y (Or.inr (Or.inl h))
    · rw [if_neg (by dsimp only; omega)]
      exact ih im x y (Or.inr (Or.inr h))

theorem rowStep_value {C P : Type} (env : RenderEnv C P) (blcY : ℕ) :
    ∀ (n : ℕ) (im : PImage P) (x y : ℕ),
      x < n * 16 → x < env.W → blcY * 16 ≤ y →
      y < Min.min ((blcY + 1) * 16) env.H →
      ((List.range n).foldl (rowStep env blcY) im) (x, y)
        = some (pixelValue env x y) := by
  intro n
  induction n with
  | zero => intro im x y hx _ _ _; omega
  | succ n ih =>
    intro im x y hx hxW hy0 hy1
    rw [List.range_succ, List.foldl_append]
    simp only [List.foldl_cons, List.foldl_nil]
    show (rowStep env blcY ((List.range n).foldl (rowStep env blcY) im) n) (x, y)
      = some (pixelValue env x y)
    unfold rowStep pasteBlock
    set Mx := Min.min ((n + 1) * 16) env.W with hMxdef
    set My := Min.min ((blcY + 1) * 16) env.H with hMydef
    by_cases hblk : n * 16 ≤ x
    · have hxMx : x < Mx := by
        rw [hMxdef]
        exact Nat.lt_min.mpr ⟨by omega, hxW⟩
      have hyMy : y < My := hy1
      rw [if_pos (by dsimp only; omega)]
      dsimp only
      rw [renderBlock_lookup env (n * 16) Mx (blcY * 16) My (x - n * 16)
        (y - blcY * 16) (by omega) (by omega)]
      have e1 : x - n * 16 + n * 16 = x := by omega
      have e2 : y - blcY * 16 + blcY * 16 = y := by omega
      rw [e1, e2]
    · rw [if_neg (by dsimp only; omega)]
      exact ih im x y (by omega) hxW hy0 hy1

theorem colFold_value {C P : Type} (env : RenderEnv C P) :
    ∀ (m : ℕ) (im : PImage P) (x y : ℕ),
      y < m * 16 → y < env.H → x < env.W →
      ((List.range m).foldl
          (fun im blcY => (List.range (ceil16 env.W)).foldl (rowStep env blcY) im)
          im) (x, y)
        = some (pixelValue env x y) := by
  intro m
  induction m with
  | zero => intro im x y hy _ _; omega
  | succ m ih =>
    intro im x y hy hyH hxW
    rw [List.range_succ, List.foldl_append]
    simp only [List.foldl_cons, List.foldl_nil]
    by_cases hrow : m * 16 ≤ y
    · refine rowStep_value env m (ceil16 env.W) _ x y ?_ hxW hrow ?_
      · have : env.W ≤ ceil16 env.W * 16 := by unfold ceil16; omega
        omega
      · exact Nat.lt_min.mpr ⟨by omega, hyH⟩
    · rw [rowStep_untouched env m (ceil16 env.W) _ x y (by omega)]
      exact ih im x y (by omega) hyH hxW

/-- C8: for the same scene, camera and per-sample offsets, the
single-process loop and the block-partitioned loop assign every pixel the
identical value (the source's `width, height = img_width, img_width`
aliasing in `render_mono` is harmless: `y = i // img_width` is the correct
row-major decomposition). -/
theorem C8_mono_and_multi_pixel_identical {C P : Type} (env : RenderEnv C P)
    (x y : ℕ) (hx : x < env.W) (hy : y < env.H) :
    renderMono env (x, y) = renderMulti env (x, y) ∧
      renderMono env (x, y) = some (pixelValue env x y) := by
  have hmono := renderMono_lookup env x y hx hy
  have hmulti : renderMulti env (x, y) = some (pixelValue env x y) := by
    unfold renderMulti
    refine colFold_value env (ceil16 env.H) _ x y ?_ hy hx
    have : env.H ≤ ceil16 env.H * 16 := by unfold ceil16; omega
    omega
  exact ⟨hmono.trans hmulti.symm, hmono⟩

/-- A concrete 20×18 sampling environment (non-square, partial edge
blocks) for the C8 witness. -/
def env20 : RenderEnv ℕ ℕ :=
  ⟨20, 18, 2, 0, Nat.add, fun i j iter => i + 100 * j + iter, id⟩

/-- C8 witness at a pixel inside a partial edge block. -/
theorem C8_witness :
    renderMono env20 (17, 16) = renderMulti env20 (17, 16) ∧
      renderMono env20 (17, 16) = some (pixelValue env20 17 16) :=
  C8_mono_and_multi_pixel_identical env20 17 16 (by decide) (by decide)

/-- The error kinds `Model.from_obj` can raise: the explicit
`ValueError("Corrupted obj file")`, an `IndexError` from record/vertex
indexing, and a conversion `ValueError` from `float()`/`int()`. -/
inductive ObjErr where
  | corrupted : ObjErr
  | index : ObjErr
  | conv : ObjErr
deriving DecidableEq

/-- Python list indexing (negative indices wrap once from the end). -/
def pyGet {α : Type} (l : List α) (i : ℤ) : Option α :=
  if 0 ≤ i then l.get? i.toNat
  else if 0 ≤ (l.length : ℤ) + i then l.get? ((l.length : ℤ) + i).toNat
  else none

/-- Fail-fast loop over records (the Python `for` with `raise`). -/
def parseAll {α β E : Type} (f : α → Except E β) : List α → Except E (List β)
  | [] => .ok []
  | a :: rest =>
    match f a with
    | .error e => .error e
    | .ok b =>
      match parseAll f rest with
      | .error e => .error e
      | .ok bs => .ok (b :: bs)

/-- One vertex record of `Model.from_obj`: the source guard is
`if not (len(triplet) == 4 or triplet[0] == "v")` — an `or` where the
claimed check needs `and` — followed by `float(triplet[1..3])`
(`pf` models the `float` builtin). -/
def parseVertexRec (pf : String → Option ℚ) (rec : List String) :
    Except ObjErr Point3 :=
  if ¬ (rec.length = 4 ∨ rec.headD "" = "v") then .error .corrupted
  else
    match rec.get? 1, rec.get? 2, rec.get? 3 with
    | some s1, some s2, some s3 =>
      match pf s1, pf s2, pf s3 with
      | some a, some b, some c => .ok ⟨a, b, c⟩
      | _, _, _ => .error .conv
    | _, _, _ => .error .index

/-- One face record: the same inverted guard with tag "f", then
`int(face_triplet[i]) - 1` (`pint` models the `int` builtin). -/
def parseFaceRec (pint : String → Option ℤ) (rec : List String) :
    Except ObjErr (ℤ × ℤ × ℤ) :=
  if ¬ (rec.length = 4 ∨ rec.headD "" = "f") then .error .corrupted
  else
    match rec.get? 1, rec.get? 2, rec.get? 3 with
    | some s1, some s2, some s3 =>
      match pint s1, pint s2, pint s3 with
      | some a, some b, some c => .ok (a - 1, b - 1, c - 1)
      | _, _, _ => .error .conv
    | _, _, _ => .error .index

/-- `Model.from_obj`, modelled from the two record blocks after the
`str.split` boundary (`str.split` is a runtime builtin; the mesh input
contract of spec §6 is already line/token structured): all vertex records
are parsed first, then each face record is parsed and immediately turned
into a `Triangle` through Python list indexing of the vertex list. -/
def fromObjRecords (pf : String → Option ℚ) (pint : String → Option ℤ)
    (mat : ℕ) (vertexRecs faceRecs : List (List String)) :
    Except ObjErr (List Triangle) :=
  match parseAll (parseVertexRec pf) vertexRecs with
  | .error e => .error e
  | .ok vertices =>
    parseAll (fun rec =>
      match parseFaceRec pint rec with
      | .error e => .error e
      | .ok t =>
        match pyGet vertices t.1, pyGet vertices t.2.1, pyGet vertices t.2.2 with
        | some a, some b, some c => .ok (mkTriangle a b c mat)
        | _, _, _ => .error .index) faceRecs

/-- Vertex records for the C9 failing input: the first record has five
fields. -/
def vRecsC9 : List (List String) :=
  [["v", "1", "2", "3", "4"], ["v", "0", "0", "0"], ["v", "0", "0", "1"],
   ["v", "0", "1", "0"]]

/-- One well-formed face record. -/
def fRecsC9 : List (List String) := [["f", "2", "3", "4"]]

/-- Finite `float` oracle for the witness tokens. -/
def pfC9 : String → Option ℚ := fun s =>
  if s = "0" then some 0 else if s = "1" then some 1
  else if s = "2" then some 2 else if s = "3" then some 3
  else if s = "4" then some 4 else none

/-- Finite `int` oracle for the witness tokens. -/
def pintC9 : String → Option ℤ := fun s =>
  if s = "2" then some 2 else if s = "3" then some 3
  else if s = "4" then some 4 else none

/-- C9: a vertex record with five fields — not the "one-letter tag
followed by 3 values" shape — is silently accepted by `from_obj` (its
guard `not (len == 4 or tag == "v")` passes any record whose tag is right
regardless of field count), and a full mesh is produced; the claim says
the loader must fail fast with a structural-format error. -/
theorem C9_from_obj_accepts_malformed_record :
    (vRecsC9.headD []).length = 5 ∧
      fromObjRecords pfC9 pintC9 0 vRecsC9 fRecsC9
        = .ok [mkTriangle ⟨0, 0, 0⟩ ⟨0, 0, 1⟩ ⟨0, 1, 0⟩ 0] := by
  constructor
  · rfl
  · simp [fromObjRecords, parseAll, parseVertexRec, parseFaceRec, pyGet,
      vRecsC9, fRecsC9, pfC9, pintC9]

/-- `rtrace.assets.hittable.BVHNode` as a tree: children are either nested
nodes or primitives (leaves carry no bounding-box gate of their own). -/
inductive BVHTree where
  | leaf (p : Prim) : BVHTree
  | node (left right : BVHTree) (box : AABB) : BVHTree
deriving DecidableEq

/-- The `bbox` attribute of a child (`self.left.bbox` etc.). -/
def BVHTree.box : BVHTree → AABB
  | .leaf p => p.bbox
  | .node _ _ b => b

/-- The three `comparator` lambdas of `BVHNode.__init__`. -/
def sortKey (ax : Fin 3) (p : Prim) : ℚ :=
  match ax with
  | 0 => p.bbox.x.min
  | 1 => p.bbox.y.min
  | 2 => p.bbox.z.min

/-- `BVHNode.__init__` with `sort_assets=False` (the recursive calls): a
span of one duplicates the primitive as both children; a span of two
splits it; otherwise split at the midpoint index.  `none` stands for the
unbounded recursion a span of zero would enter (unreachable from a
nonempty list). -/
def bvhBuildNS : List Prim → Option BVHTree
  | [] => none
  | [p] => some (.node (.leaf p) (.leaf p) (AABB.fromBox p.bbox p.bbox))
  | [a, b] => some (.node (.leaf a) (.leaf b) (AABB.fromBox a.bbox b.bbox))
  | a :: b :: c :: rest =>
    let l := a :: b :: c :: rest
    let mid := l.length / 2
    match bvhBuildNS (l.take mid), bvhBuildNS (l.drop mid) with
    | some lt, some rt => some (.node lt rt (AABB.fromBox lt.box rt.box))
    | _, _ => none
  termination_by l => l.length
  decreasing_by
    · simp_wf; omega
    · simp_wf; omega

/-- `BVHNode(asset_list)` at the root (`sort_assets=True`): a span above
two is stably sorted by the chosen axis comparator before splitting
(`ax` models the `random.choice` of the comparator; Python's `list.sort`
is stable, as is `List.insertionSort`). -/
def bvhBuild (ax : Fin 3) (l : List Prim) : Option BVHTree :=
  if 2 < l.length then
    bvhBuildNS (List.insertionSort (fun a b => sortKey ax a ≤ sortKey ax b) l)
  else bvhBuildNS l

/-- `BVHNode.hit`: gate on the node box, hit the left child, then the
right child with the max tightened to the left hit's `t` (reading `rec.t`
— `none` if the record were still unset, which a successful left hit rules
out). -/
def bvhHit (sq : ℚ → ℚ) (uv : Vec3 → ℚ × ℚ) (r : Ray) :
    BVHTree → Interval → RecS → Option (Bool × RecS)
  | .leaf p, I, rec => p.hit sq uv r I rec
  | .node lt rt box, I, rec =>
    match box.hit r I with
    | none => none
    | some false => some (false, rec)
    | some true =>
      match bvhHit sq uv r lt I rec with
      | none => none
      | some (hitL, rec1) =>
        match (if hitL then (match rec1 with
                | some rc => some (XQ.fin rc.t)
                | none => none)
               else some I.max) with
        | none => none
        | some mx =>
          match bvhHit sq uv r rt ⟨I.min, mx⟩ rec1 with
          | none => none
          | some (hitR, rec2) => some (hitL || hitR, rec2)

/-- The primitives of a subtree in traversal order (with the span-one
duplication). -/
def BVHTree.flatten : BVHTree → List Prim
  | .leaf p => [p]
  | .node lt rt _ => lt.flatten ++ rt.flatten

/-- The candidate record a primitive would produce against a search
interval with min `m`, independently of the interval max: the derived
form of `Sphere.hit`/`Quad.hit` on which the BVH/brute-force equivalence
is stated and proved.  A sphere's candidate is its smaller root unless
that is not strictly above `m`, else the larger; a quad folds in the
plane/interior gates and the lower interval bound. -/
def primCandidate (sq : ℚ → ℚ) (uv : Vec3 → ℚ × ℚ) (p : Prim) (r : Ray)
    (m : XQ) : Option HitRecord :=
  match p with
  | .sphere s =>
    if s.disc r < 0 then none
    else
      let rts := s.roots sq r
      if m < XQ.fin rts.1 then some (s.record uv r rts.1)
      else if m < XQ.fin rts.2 then some (s.record uv r rts.2)
      else none
  | .quad q =>
    let denom := Vec3.dot q.normal r.direction
    if |denom| < 1/100000000 then none
    else
      let t := (q.D - Vec3.dot q.normal r.origin) / denom
      if ¬ m ≤ XQ.fin t then none
      else
        let inter := r.at t
        let planar := inter - q.center
        let alpha := Vec3.dot q.w (Vec3.cross planar q.v)
        let beta := Vec3.dot q.w (Vec3.cross q.u planar)
        if ¬ (unitContains alpha ∧ unitContains beta) then none
        else
          let fn := faceNormal r q.normal
          some ⟨inter, fn.2, q.mat, t, alpha, beta, fn.1⟩

/-- Whether the upper interval test of the primitive is strict (spheres:
`surrounds`) or inclusive (quads: `contains`). -/
def primStrict : Prim → Bool
  | .sphere _ => true
  | .quad _ => false

/-- Acceptance of a candidate against the current interval max. -/
def acceptRec (p : Prim) (rc : HitRecord) (M : XQ) : Prop :=
  if primStrict p then XQ.fin rc.t < M else XQ.fin rc.t ≤ M

instance (p : Prim) (rc : HitRecord) (M : XQ) : Decidable (acceptRec p rc M) := by
  unfold acceptRec
  split <;> infer_instance

/-- Regularity of a primitive against a ray: a sphere needs a nonzero
radius (else the recorded normal divides by zero) and a square-root
oracle that is nonnegative at its discriminant. -/
def PrimRegular (sq : ℚ → ℚ) (r : Ray) : Prim → Prop
  | .sphere s => s.radius ≠ 0 ∧ (0 ≤ s.disc r → 0 ≤ sq (s.disc r))
  | .quad _ => True

theorem sphere_roots_le (sq : ℚ → ℚ) (s : Sphere) (r : Ray)
    (ha : r.direction.lengthSquared ≠ 0) (hs : 0 ≤ sq (s.disc r)) :
    (s.roots sq r).1 ≤ (s.roots sq r).2 := by
  have hap : 0 < r.direction.lengthSquared :=
    lt_of_le_of_ne (Vec3.lengthSquared_nonneg _) (Ne.symm ha)
  unfold Sphere.roots
  dsimp only
  rw [div_le_div_iff₀ hap hap]
  nlinarith [mul_nonneg hs hap.le]

/-- The hit routine of a primitive, characterized by its candidate and
the acceptance test against the interval max. -/
theorem prim_hit_char (sq : ℚ → ℚ) (uv : Vec3 → ℚ × ℚ) (p : Prim) (r : Ray)
    (m M : XQ) (rec : RecS) (hreg : PrimRegular sq r p)
    (ha : r.direction.lengthSquared ≠ 0) :
    p.hit sq uv r ⟨m, M⟩ rec
      = some (match primCandidate sq uv p r m with
              | some rc => if acceptRec p rc M then (true, some rc) else (false, rec)
              | none => (false, rec)) := by
  cases p with
  | sphere s =>
    obtain ⟨hrad, hsq⟩ := hreg
    simp only [Prim.hit, Sphere.hit, primCandidate]
    by_cases hd : s.disc r < 0
    · rw [if_pos hd, if_pos hd]
    · have hle := sphere_roots_le sq s r ha (hsq (not_lt.mp hd))
      rw [if_neg hd, if_neg hd, if_neg ha]
      by_cases h1a : m < XQ.fin (s.roots sq r).1
      · by_cases h1b : XQ.fin (s.roots sq r).1 < M
        · simp [Interval.surrounds, acceptRec, primStrict, h1a, h1b, hrad]
        · have h2b : ¬ XQ.fin (s.roots sq r).2 < M :=
            fun hc => h1b (lt_of_le_of_lt (XQ.fin_le_fin.mpr hle) hc)
          simp [Interval.surrounds, acceptRec, primStrict, h1a, h1b, h2b]
      · by_cases h2a : m < XQ.fin (s.roots sq r).2
        · by_cases h2b : XQ.fin (s.roots sq r).2 < M
          · simp [Interval.surrounds, acceptRec, primStrict, h1a, h2a, h2b, hrad]
          · simp [Interval.surrounds, acceptRec, primStrict, h1a, h2a, h2b]
        · simp [Interval.surrounds, h1a, h2a]
  | quad q =>
    simp only [Prim.hit, Quad.hit, primCandidate]
    by_cases hden : |Vec3.dot q.normal r.direction| < 1/100000000
    · rw [if_pos hden, if_pos hden]
    · rw [if_neg hden, if_neg hden]
      set av := Vec3.dot q.w (Vec3.cross (r.at ((q.D - Vec3.dot q.normal r.origin) / Vec3.dot q.normal r.direction) - q.center) q.v) with hav
      set bv := Vec3.dot q.w (Vec3.cross q.u (r.at ((q.D - Vec3.dot q.normal r.origin) / Vec3.dot q.normal r.direction) - q.center)) with hbv
      set tv := ((q.D - Vec3.dot q.normal r.origin) / Vec3.dot q.normal r.direction) with htv
      by_cases hmt : m ≤ XQ.fin tv
      · by_cases htM : XQ.fin tv ≤ M
        · by_cases hint : unitContains av ∧ unitContains bv
          · rw [if_neg (not_not.mpr (show Interval.contains ⟨m, M⟩ tv from
                ⟨hmt, htM⟩)), if_neg (not_not.mpr hint),
              if_neg (not_not.mpr hmt), if_neg (not_not.mpr hint)]
            dsimp only
            rw [if_pos (show acceptRec (.quad q)
                ⟨r.at tv, (faceNormal r q.normal).2, q.mat, tv, av, bv,
                  (faceNormal r q.normal).1⟩ M by
              simpa [acceptRec, primStrict] using htM)]
          · rw [if_neg (not_not.mpr (show Interval.contains ⟨m, M⟩ tv from
                ⟨hmt, htM⟩)), if_pos hint, if_neg (not_not.mpr hmt), if_pos hint]
        · rw [if_pos (show ¬ Interval.contains ⟨m, M⟩ tv from
            fun hc => htM hc.2), if_neg (not_not.mpr hmt)]
          by_cases hint : unitContains av ∧ unitContains bv
          · rw [if_neg (not_not.mpr hint)]
            dsimp only
            rw [if_neg (show ¬ acceptRec (.quad q)
                ⟨r.at tv, (faceNormal r q.normal).2, q.mat, tv, av, bv,
                  (faceNormal r q.normal).1⟩ M by
              simpa [acceptRec, primStrict] using htM)]
          · rw [if_pos hint]
      · rw [if_pos (show ¬ Interval.contains ⟨m, M⟩ tv from
          fun hc => hmt hc.1), if_pos hmt]

/-- The effect of one scan-loop iteration expressed on the candidate
semantics: if the primitive yields a candidate (computed against the
current interval min) and the candidate passes the acceptance test against
the current interval max, the state records it and the max shrinks to its
`t`; otherwise the state is unchanged. -/
def specStep (sq : ℚ → ℚ) (uv : Vec3 → ℚ × ℚ) (r : Ray)
    (st : Bool × RecS × Interval) (p : Prim) : Bool × RecS × Interval :=
  match primCandidate sq uv p r st.2.2.min with
  | some rc =>
    if acceptRec p rc st.2.2.max then (true, some rc, ⟨st.2.2.min, XQ.fin rc.t⟩)
    else st
  | none => st

theorem specStep_of_none (sq : ℚ → ℚ) (uv : Vec3 → ℚ × ℚ) (r : Ray) (p : Prim)
    {m0 : XQ} (hc : primCandidate sq uv p r m0 = none)
    (st : Bool × RecS × Interval) (hmin : st.2.2.min = m0) :
    specStep sq uv r st p = st := by
  simp [specStep, hmin, hc]

theorem specStep_of_some (sq : ℚ → ℚ) (uv : Vec3 → ℚ × ℚ) (r : Ray) (p : Prim)
    (rc : HitRecord) {m0 : XQ} (hc : primCandidate sq uv p r m0 = some rc)
    (st : Bool × RecS × Interval) (hmin : st.2.2.min = m0) :
    specStep sq uv r st p
      = if acceptRec p rc st.2.2.max then (true, some rc, ⟨m0, XQ.fin rc.t⟩)
        else st := by
  simp [specStep, hmin, hc]

theorem specStep_min_pres (sq : ℚ → ℚ) (uv : Vec3 → ℚ × ℚ) (r : Ray)
    (st : Bool × RecS × Interval) (p : Prim) :
    (specStep sq uv r st p).2.2.min = st.2.2.min := by
  unfold specStep
  cases primCandidate sq uv p r st.2.2.min with
  | none => rfl
  | some rc =>
    dsimp only
    split
    · rfl
    · rfl

/-- One scan iteration agrees with the candidate-semantics step (on regular
primitives and a nonzero ray direction it cannot raise). -/
theorem scanStep_eq_specStep (sq : ℚ → ℚ) (uv : Vec3 → ℚ × ℚ) (r : Ray)
    (st : Bool × RecS × Interval) (p : Prim) (hreg : PrimRegular sq r p)
    (ha : r.direction.lengthSquared ≠ 0) :
    scanStep sq uv r st p = some (specStep sq uv r st p) := by
  obtain ⟨b0, rec0, I0⟩ := st
  obtain ⟨m, M⟩ := I0
  have hchar := prim_hit_char sq uv p r m M rec0 hreg ha
  unfold scanStep specStep
  dsimp only
  rw [hchar]
  cases hc : primCandidate sq uv p r m with
  | none => rfl
  | some rc =>
    dsimp only
    by_cases hacc : acceptRec p rc M
    · rw [if_pos hacc, if_pos hacc]
    · rw [if_neg hacc, if_neg hacc]

/-- The whole scan loop agrees with a left fold of the candidate step. -/
theorem scanPrims_eq_specFold (sq : ℚ → ℚ) (uv : Vec3 → ℚ × ℚ) (r : Ray)
    (ha : r.direction.lengthSquared ≠ 0) :
    ∀ (l : List Prim), (∀ p ∈ l, PrimRegular sq r p) →
      ∀ st, scanPrims sq uv r l st = some (l.foldl (specStep sq uv r) st) := by
  intro l
  induction l with
  | nil => intro _ st; rfl
  | cons p rest ih =>
    intro hreg st
    rw [scanPrims, scanStep_eq_specStep sq uv r st p
      (hreg p (List.mem_cons_self p rest)) ha]
    exact ih (fun q hq => hreg q (List.mem_cons_of_mem p hq)) (specStep sq uv r st p)

/-- No two primitives of the list produce candidate hits at exactly the
same parameter `t` (against interval min `m0`). -/
def NoTies (sq : ℚ → ℚ) (uv : Vec3 → ℚ × ℚ) (r : Ray) (m0 : XQ)
    (l0 : List Prim) : Prop :=
  ∀ p q rc1 rc2, p ∈ l0 → q ∈ l0 →
    primCandidate sq uv p r m0 = some rc1 →
    primCandidate sq uv q r m0 = some rc2 → rc1.t = rc2.t → p = q

/-- The states reachable by the scan from `(False, rec0, [m0, M0])`: either
untouched, or a recorded candidate of some list member with the max shrunk
to its `t`. -/
def StInv (sq : ℚ → ℚ) (uv : Vec3 → ℚ × ℚ) (r : Ray) (l0 : List Prim)
    (rec0 : RecS) (m0 M0 : XQ) (st : Bool × RecS × Interval) : Prop :=
  st = (false, rec0, ⟨m0, M0⟩) ∨
    ∃ p0 rc, p0 ∈ l0 ∧ primCandidate sq uv p0 r m0 = some rc ∧
      st = (true, some rc, ⟨m0, XQ.fin rc.t⟩)

theorem StInv_min {sq : ℚ → ℚ} {uv : Vec3 → ℚ × ℚ} {r : Ray} {l0 : List Prim}
    {rec0 : RecS} {m0 M0 : XQ} {st : Bool × RecS × Interval}
    (h : StInv sq uv r l0 rec0 m0 M0 st) : st.2.2.min = m0 := by
  rcases h with h | ⟨p0, rc, _, _, h⟩ <;> subst h <;> rfl

theorem specStep_inv (sq : ℚ → ℚ) (uv : Vec3 → ℚ × ℚ) (r : Ray)
    (l0 : List Prim) (rec0 : RecS) (m0 M0 : XQ) (p : Prim) (hp : p ∈ l0)
    (st : Bool × RecS × Interval) (hst : StInv sq uv r l0 rec0 m0 M0 st) :
    StInv sq uv r l0 rec0 m0 M0 (specStep sq uv r st p) := by
  have hmin := StInv_min hst
  cases hc : primCandidate sq uv p r m0 with
  | none => rw [specStep_of_none sq uv r p hc st hmin]; exact hst
  | some rc =>
    rw [specStep_of_some sq uv r p rc hc st hmin]
    by_cases hacc : acceptRec p rc st.2.2.max
    · rw [if_pos hacc]
      exact Or.inr ⟨p, rc, hp, hc, rfl⟩
    · rw [if_neg hacc]; exact hst

theorem specFold_inv (sq : ℚ → ℚ) (uv : Vec3 → ℚ × ℚ) (r : Ray)
    (l0 : List Prim) (rec0 : RecS) (m0 M0 : XQ) :
    ∀ (l : List Prim), (∀ p ∈ l, p ∈ l0) →
      ∀ st, StInv sq uv r l0 rec0 m0 M0 st →
        StInv sq uv r l0 rec0 m0 M0 (l.foldl (specStep sq uv r) st) := by
  intro l
  induction l with
  | nil => intro _ st hst; exact hst
  | cons p rest ih =>
    intro hmem st hst
    simp only [List.foldl_cons]
    exact ih (fun q hq => hmem q (List.mem_cons_of_mem p hq)) _
      (specStep_inv sq uv r l0 rec0 m0 M0 p (hmem p (List.mem_cons_self p rest)) st hst)

theorem acceptRec_le {p : Prim} {rc : HitRecord} {M : XQ}
    (h : acceptRec p rc M) : XQ.fin rc.t ≤ M := by
  unfold acceptRec at h
  split at h
  · exact le_of_lt h
  · exact h

theorem acceptRec_of_lt {p : Prim} {rc : HitRecord} {M : XQ}
    (h : XQ.fin rc.t < M) : acceptRec p rc M := by
  unfold acceptRec
  split
  · exact h
  · exact le_of_lt h

/-- Candidates lie above the interval min: strictly for spheres (the
`surrounds` test), inclusively for quads (the `contains` test). -/
theorem primCandidate_lb (sq : ℚ → ℚ) (uv : Vec3 → ℚ × ℚ) (p : Prim) (r : Ray)
    (m : XQ) (rc : HitRecord) (h : primCandidate sq uv p r m = some rc) :
    (primStrict p = true → m < XQ.fin rc.t) ∧
      (primStrict p = false → m ≤ XQ.fin rc.t) := by
  cases p with
  | sphere s =>
    refine ⟨fun _ => ?_, fun hf => by simp [primStrict] at hf⟩
    simp only [primCandidate] at h
    split_ifs at h with h1 h2 h3
    · rw [Option.some_inj] at h
      subst h
      simpa using h2
    · rw [Option.some_inj] at h
      subst h
      simpa using h3
  | quad q =>
    refine ⟨fun ht => by simp [primStrict] at ht, fun _ => ?_⟩
    simp only [primCandidate] at h
    split_ifs at h with h1 h2 h3
    rw [Option.some_inj] at h
    subst h
    exact h2

/-- A step is a no-op once the interval is degenerate (max at or below
min): the only way a candidate could still pass is an inclusive tie, which
under no ties can only be the recorded hit itself. -/
theorem specStep_noop (sq : ℚ → ℚ) (uv : Vec3 → ℚ × ℚ) (r : Ray)
    (l0 : List Prim) (rec0 : RecS) (m0 M0 : XQ)
    (hnt : NoTies sq uv r m0 l0) (hmM : m0 < M0) (p : Prim) (hp : p ∈ l0)
    (st : Bool × RecS × Interval) (hst : StInv sq uv r l0 rec0 m0 M0 st)
    (hle : st.2.2.max ≤ m0) : specStep sq uv r st p = st := by
  rcases hst with hst | ⟨p0, rc, hp0, hc0, hst⟩
  · subst hst
    dsimp only at hle
    exact absurd (lt_of_lt_of_le hmM hle) (lt_irrefl m0)
  · subst hst
    dsimp only at hle
    cases hc : primCandidate sq uv p r m0 with
    | none => exact specStep_of_none sq uv r p hc _ rfl
    | some rcp =>
      rw [specStep_of_some sq uv r p rcp hc _ rfl]
      dsimp only
      cases hps : primStrict p with
      | true =>
        rw [if_neg ?_]
        intro hacc
        unfold acceptRec at hacc
        rw [hps] at hacc
        rw [if_pos rfl] at hacc
        have hlb := (primCandidate_lb sq uv p r m0 rcp hc).1 hps
        exact absurd (lt_trans hlb (lt_of_lt_of_le hacc hle)) (lt_irrefl m0)
      | false =>
        by_cases hacc : acceptRec p rcp (XQ.fin rc.t)
        · have hlb := (primCandidate_lb sq uv p r m0 rcp hc).2 hps
          have he : XQ.fin rcp.t = XQ.fin rc.t :=
            le_antisymm (acceptRec_le hacc) (le_trans hle hlb)
          have hpq : p = p0 := hnt p p0 rcp rc hp hp0 hc hc0 (XQ.fin.inj he)
          subst hpq
          have hrr : rcp = rc := Option.some_inj.mp (hc.symm.trans hc0)
          subst hrr
          rw [if_pos hacc, he]
        · rw [if_neg hacc]

theorem specFold_noop (sq : ℚ → ℚ) (uv : Vec3 → ℚ × ℚ) (r : Ray)
    (l0 : List Prim) (rec0 : RecS) (m0 M0 : XQ)
    (hnt : NoTies sq uv r m0 l0) (hmM : m0 < M0) :
    ∀ (l : List Prim), (∀ p ∈ l, p ∈ l0) →
      ∀ st, StInv sq uv r l0 rec0 m0 M0 st → st.2.2.max ≤ m0 →
        l.foldl (specStep sq uv r) st = st := by
  intro l
  induction l with
  | nil => intro _ st _ _; rfl
  | cons p rest ih =>
    intro hmem st hst hle
    simp only [List.foldl_cons,
      specStep_noop sq uv r l0 rec0 m0 M0 hnt hmM p
        (hmem p (List.mem_cons_self p rest)) st hst hle]
    exact ih (fun q hq => hmem q (List.mem_cons_of_mem p hq)) st hst hle

/-- Processing the same primitive twice in a row is the same as once (the
span-one duplication of the BVH build is invisible to the scan). -/
theorem specStep_idem (sq : ℚ → ℚ) (uv : Vec3 → ℚ × ℚ) (r : Ray)
    (st : Bool × RecS × Interval) (p : Prim) :
    specStep sq uv r (specStep sq uv r st p) p = specStep sq uv r st p := by
  cases hc : primCandidate sq uv p r st.2.2.min with
  | none =>
    rw [specStep_of_none sq uv r p hc st rfl, specStep_of_none sq uv r p hc st rfl]
  | some rc =>
    by_cases hacc : acceptRec p rc st.2.2.max
    · have e : specStep sq uv r st p = (true, some rc, ⟨st.2.2.min, XQ.fin rc.t⟩) := by
        rw [specStep_of_some sq uv r p rc hc st rfl, if_pos hacc]
      rw [e, specStep_of_some sq uv r p rc hc
        (true, some rc, ⟨st.2.2.min, XQ.fin rc.t⟩) rfl]
      dsimp only
      by_cases h2 : acceptRec p rc (XQ.fin rc.t)
      · rw [if_pos h2]
      · rw [if_neg h2]
    · have e : specStep sq uv r st p = st := by
        rw [specStep_of_some sq uv r p rc hc st rfl, if_neg hacc]
      rw [e, e]

theorem specStep_fst_true (sq : ℚ → ℚ) (uv : Vec3 → ℚ × ℚ) (r : Ray)
    (st : Bool × RecS × Interval) (p : Prim) (h : st.1 = true) :
    (specStep sq uv r st p).1 = true := by
  cases hc : primCandidate sq uv p r st.2.2.min with
  | none => rw [specStep_of_none sq uv r p hc st rfl]; exact h
  | some rc =>
    rw [specStep_of_some sq uv r p rc hc st rfl]
    split
    · rfl
    · exact h

theorem specFold_true_stable (sq : ℚ → ℚ) (uv : Vec3 → ℚ × ℚ) (r : Ray) :
    ∀ (l : List Prim) (st : Bool × RecS × Interval), st.1 = true →
      (l.foldl (specStep sq uv r) st).1 = true := by
  intro l
  induction l with
  | nil => exact fun st h => h
  | cons p rest ih =>
    intro st h
    simp only [List.foldl_cons]
    exact ih _ (specStep_fst_true sq uv r st p h)

/-- The caller record only matters while nothing has been hit: two runs of
the fold from initial states differing only in the record either both
accept a first candidate (after which the states coincide) or both come
back untouched. -/
theorem specFold_rec_indep (sq : ℚ → ℚ) (uv : Vec3 → ℚ × ℚ) (r : Ray) :
    ∀ (l : List Prim) (I : Interval) (recX recY : RecS),
      (l.foldl (specStep sq uv r) (false, recX, I)).1
          = (l.foldl (specStep sq uv r) (false, recY, I)).1 ∧
        ((l.foldl (specStep sq uv r) (false, recX, I)).1 = true →
          l.foldl (specStep sq uv r) (false, recX, I)
            = l.foldl (specStep sq uv r) (false, recY, I)) ∧
        ((l.foldl (specStep sq uv r) (false, recX, I)).1 = false →
          l.foldl (specStep sq uv r) (false, recX, I) = (false, recX, I) ∧
            l.foldl (specStep sq uv r) (false, recY, I) = (false, recY, I)) := by
  intro l
  induction l with
  | nil =>
    intro I recX recY
    exact ⟨rfl, fun h => absurd h (by simp), fun _ => ⟨rfl, rfl⟩⟩
  | cons p rest ih =>
    intro I recX recY
    simp only [List.foldl_cons]
    cases hc : primCandidate sq uv p r I.min with
    | none =>
      rw [specStep_of_none sq uv r p hc (false, recX, I) rfl,
          specStep_of_none sq uv r p hc (false, recY, I) rfl]
      exact ih I recX recY
    | some rc =>
      by_cases hacc : acceptRec p rc I.max
      · have ex : specStep sq uv r (false, recX, I) p
            = (true, some rc, ⟨I.min, XQ.fin rc.t⟩) := by
          rw [specStep_of_some sq uv r p rc hc (false, recX, I) rfl]
          dsimp only
          rw [if_pos hacc]
        have ey : specStep sq uv r (false, recY, I) p
            = (true, some rc, ⟨I.min, XQ.fin rc.t⟩) := by
          rw [specStep_of_some sq uv r p rc hc (false, recY, I) rfl]
          dsimp only
          rw [if_pos hacc]
        rw [ex, ey]
        refine ⟨rfl, fun _ => rfl, fun h => ?_⟩
        have hs := specFold_true_stable sq uv r rest
          (true, some rc, ⟨I.min, XQ.fin rc.t⟩) rfl
        rw [h] at hs
        exact Bool.noConfusion hs
      · have ex : specStep sq uv r (false, recX, I) p = (false, recX, I) := by
          rw [specStep_of_some sq uv r p rc hc (false, recX, I) rfl]
          dsimp only
          rw [if_neg hacc]
        have ey : specStep sq uv r (false, recY, I) p = (false, recY, I) := by
          rw [specStep_of_some sq uv r p rc hc (false, recY, I) rfl]
          dsimp only
          rw [if_neg hacc]
        rw [ex, ey]
        exact ih I recX recY

theorem not_acceptRec_second {x y : Prim} {rcx rcy : HitRecord} {M : XQ}
    (hne : rcy.t ≠ rcx.t) (hax : acceptRec x rcx M) (hnay : ¬ acceptRec y rcy M) :
    ¬ acceptRec y rcy (XQ.fin rcx.t) := by
  intro h
  apply hnay
  apply acceptRec_of_lt
  exact lt_of_lt_of_le
    (lt_of_le_of_ne (acceptRec_le h) (fun hq => hne (XQ.fin.inj hq)))
    (acceptRec_le hax)

/-- Without ties, two scan steps on distinct primitives commute: whichever
order they are tried, the closer accepted candidate wins. -/
theorem specStep_comm (sq : ℚ → ℚ) (uv : Vec3 → ℚ × ℚ) (r : Ray) (m0 : XQ)
    (l0 : List Prim) (hnt : NoTies sq uv r m0 l0) {x y : Prim}
    (hx : x ∈ l0) (hy : y ∈ l0) (st : Bool × RecS × Interval)
    (hmin : st.2.2.min = m0) :
    specStep sq uv r (specStep sq uv r st x) y
      = specStep sq uv r (specStep sq uv r st y) x := by
  by_cases hxy : x = y
  · subst hxy; rfl
  cases hcx : primCandidate sq uv x r m0 with
  | none =>
    rw [specStep_of_none sq uv r x hcx st hmin,
        specStep_of_none sq uv r x hcx (specStep sq uv r st y)
          ((specStep_min_pres sq uv r st y).trans hmin)]
  | some rcx =>
    cases hcy : primCandidate sq uv y r m0 with
    | none =>
      rw [specStep_of_none sq uv r y hcy st hmin,
          specStep_of_none sq uv r y hcy (specStep sq uv r st x)
            ((specStep_min_pres sq uv r st x).trans hmin)]
    | some rcy =>
      have hne : rcx.t ≠ rcy.t := fun h => hxy (hnt x y rcx rcy hx hy hcx hcy h)
      by_cases hax : acceptRec x rcx st.2.2.max
      · by_cases hay : acceptRec y rcy st.2.2.max
        · have ex : specStep sq uv r st x = (true, some rcx, ⟨m0, XQ.fin rcx.t⟩) := by
            rw [specStep_of_some sq uv r x rcx hcx st hmin, if_pos hax]
          have ey : specStep sq uv r st y = (true, some rcy, ⟨m0, XQ.fin rcy.t⟩) := by
            rw [specStep_of_some sq uv r y rcy hcy st hmin, if_pos hay]
          rw [ex, ey,
              specStep_of_some sq uv r y rcy hcy
                (true, some rcx, ⟨m0, XQ.fin rcx.t⟩) rfl,
              specStep_of_some sq uv r x rcx hcx
                (true, some rcy, ⟨m0, XQ.fin rcy.t⟩) rfl]
          dsimp only
          rcases lt_trichotomy rcx.t rcy.t with hlt | heq | hgt
          · rw [if_neg (fun h =>
                absurd (XQ.fin_le_fin.mp (acceptRec_le h)) (not_le.mpr hlt)),
              if_pos (acceptRec_of_lt (XQ.fin_lt_fin.mpr hlt))]
          · exact absurd heq hne
          · rw [if_pos (acceptRec_of_lt (XQ.fin_lt_fin.mpr hgt)),
              if_neg (fun h =>
                absurd (XQ.fin_le_fin.mp (acceptRec_le h)) (not_le.mpr hgt))]
        · have h1 : ¬ acceptRec y rcy (XQ.fin rcx.t) :=
            not_acceptRec_second (Ne.symm hne) hax hay
          have ex : specStep sq uv r st x = (true, some rcx, ⟨m0, XQ.fin rcx.t⟩) := by
            rw [specStep_of_some sq uv r x rcx hcx st hmin, if_pos hax]
          have ey : specStep sq uv r st y = st := by
            rw [specStep_of_some sq uv r y rcy hcy st hmin, if_neg hay]
          rw [ex, ey, ex,
              specStep_of_some sq uv r y rcy hcy
                (true, some rcx, ⟨m0, XQ.fin rcx.t⟩) rfl]
          dsimp only
          rw [if_neg h1]
      · by_cases hay : acceptRec y rcy st.2.2.max
        · have h2 : ¬ acceptRec x rcx (XQ.fin rcy.t) :=
            not_acceptRec_second hne hay hax
          have ex : specStep sq uv r st x = st := by
            rw [specStep_of_some sq uv r x rcx hcx st hmin, if_neg hax]
          have ey : specStep sq uv r st y = (true, some rcy, ⟨m0, XQ.fin rcy.t⟩) := by
            rw [specStep_of_some sq uv r y rcy hcy st hmin, if_pos hay]
          rw [ex, ey,
              specStep_of_some sq uv r x rcx hcx
                (true, some rcy, ⟨m0, XQ.fin rcy.t⟩) rfl]
          dsimp only
          rw [if_neg h2]
        · have ex : specStep sq uv r st x = st := by
            rw [specStep_of_some sq uv r x rcx hcx st hmin, if_neg hax]
          have ey : specStep sq uv r st y = st := by
            rw [specStep_of_some sq uv r y rcy hcy st hmin, if_neg hay]
          rw [ex, ey, ex]

/-- Without ties the scan fold is invariant under permutation of the asset
list (in particular under the sort performed at the BVH root). -/
theorem foldl_specStep_perm (sq : ℚ → ℚ) (uv : Vec3 → ℚ × ℚ) (r : Ray)
    (m0 : XQ) (l0 : List Prim) (hnt : NoTies sq uv r m0 l0)
    {l1 l2 : List Prim} (hperm : l1.Perm l2) :
    (∀ p ∈ l1, p ∈ l0) → ∀ st : Bool × RecS × Interval, st.2.2.min = m0 →
      l1.foldl (specStep sq uv r) st = l2.foldl (specStep sq uv r) st := by
  induction hperm with
  | nil => intro _ st _; rfl
  | cons p h ih =>
    intro hmem st hmin
    simp only [List.foldl_cons]
    exact ih (fun q hq => hmem q (List.mem_cons_of_mem p hq)) _
      ((specStep_min_pres sq uv r st p).trans hmin)
  | swap a b l =>
    intro hmem st hmin
    simp only [List.foldl_cons]
    rw [specStep_comm sq uv r m0 l0 hnt
      (hmem b (by simp)) (hmem a (by simp)) st hmin]
  | trans h1 h2 ih1 ih2 =>
    intro hmem st hmin
    rw [ih1 hmem st hmin, ih2 (fun q hq => hmem q (h1.mem_iff.mpr hq)) st hmin]

/-- With a nonzero direction component an axis step never raises, and its
early False implies the search interval was already degenerate (the
widened bounds contain the original ones). -/
theorem axisStep_cases (ax : QInterval) (d o : ℚ) (I : Interval) (hd : d ≠ 0) :
    AABB.axisStep ax d o I = some true ∨
      (AABB.axisStep ax d o I = some false ∧ I.max ≤ I.min) := by
  simp only [AABB.axisStep, if_neg hd]
  split
  · rename_i hM
    exact Or.inr ⟨rfl, le_trans (le_max_left _ _) (le_trans hM (min_le_left _ _))⟩
  · exact Or.inl rfl

/-- With all direction components nonzero `AABB.hit` never raises; it can
only return False when the search interval is degenerate. -/
theorem aabb_hit_cases (b : AABB) (r : Ray) (I : Interval)
    (hx : r.direction.x ≠ 0) (hy : r.direction.y ≠ 0) (hz : r.direction.z ≠ 0) :
    b.hit r I = some true ∨ (b.hit r I = some false ∧ I.max ≤ I.min) := by
  unfold AABB.hit
  rcases axisStep_cases b.x r.direction.x r.origin.x I hx with h1 | ⟨h1, hle⟩
  · rw [h1]
    rcases axisStep_cases b.y r.direction.y r.origin.y I hy with h2 | ⟨h2, hle⟩
    · rw [h2]
      rcases axisStep_cases b.z r.direction.z r.origin.z I hz with h3 | ⟨h3, hle⟩
      · rw [h3]
        exact Or.inl rfl
      · rw [h3]
        exact Or.inr ⟨rfl, hle⟩
    · rw [h2]
      exact Or.inr ⟨rfl, hle⟩
  · rw [h1]
    exact Or.inr ⟨rfl, hle⟩

/-- With a nondegenerate search interval, a zero direction component makes
`AABB.hit` raise `ZeroDivisionError` (`none`), whatever the box: the axes
before the zero one cannot return early because the widened test only
fails on degenerate intervals. -/
theorem aabb_hit_zero_none (b : AABB) (r : Ray) (I : Interval)
    (hmM : I.min < I.max)
    (h0 : r.direction.x = 0 ∨ r.direction.y = 0 ∨ r.direction.z = 0) :
    b.hit r I = none := by
  unfold AABB.hit
  by_cases hx : r.direction.x = 0
  · have e1 : AABB.axisStep b.x r.direction.x r.origin.x I = none := by
      simp [AABB.axisStep, hx]
    rw [e1]
  · rcases axisStep_cases b.x r.direction.x r.origin.x I hx with h1 | ⟨_, hle⟩
    · rw [h1]
      by_cases hyy : r.direction.y = 0
      · have e2 : AABB.axisStep b.y r.direction.y r.origin.y I = none := by
          simp [AABB.axisStep, hyy]
        rw [e2]
      · rcases axisStep_cases b.y r.direction.y r.origin.y I hyy with h2 | ⟨_, hle⟩
        · rw [h2]
          have hzz : r.direction.z = 0 := by tauto
          simp [AABB.axisStep, hzz]
        · exact absurd (lt_of_lt_of_le hmM hle) (lt_irrefl _)
    · exact absurd (lt_of_lt_of_le hmM hle) (lt_irrefl _)

theorem bvhBuildNS_cons3 (a b c : Prim) (rest : List Prim) :
    bvhBuildNS (a :: b :: c :: rest)
      = match bvhBuildNS ((a :: b :: c :: rest).take
              ((a :: b :: c :: rest).length / 2)),
            bvhBuildNS ((a :: b :: c :: rest).drop
              ((a :: b :: c :: rest).length / 2)) with
        | some lt, some rt => some (.node lt rt (AABB.fromBox lt.box rt.box))
        | _, _ => none := by
  simp only [bvhBuildNS]

/-- The unsorted build on a nonempty list succeeds, returns a node, and
the fold of the scan step over its traversal order equals the fold over
the input list (the span-one duplication is idempotent). -/
theorem bvhBuildNS_spec (sq : ℚ → ℚ) (uv : Vec3 → ℚ × ℚ) (r : Ray) :
    ∀ (n : ℕ) (l : List Prim), l.length ≤ n → l ≠ [] →
      ∃ lt rt bx, bvhBuildNS l = some (BVHTree.node lt rt bx) ∧
        (∀ p ∈ (BVHTree.node lt rt bx).flatten, p ∈ l) ∧
        ∀ st, (BVHTree.node lt rt bx).flatten.foldl (specStep sq uv r) st
            = l.foldl (specStep sq uv r) st := by
  intro n
  induction n with
  | zero =>
    intro l hlen hne
    exact absurd (List.length_eq_zero.mp (Nat.le_zero.mp hlen)) hne
  | succ n ih =>
    intro l hlen hne
    rcases l with _ | ⟨a, l⟩
    · exact absurd rfl hne
    rcases l with _ | ⟨b, l⟩
    · refine ⟨.leaf a, .leaf a, AABB.fromBox a.bbox a.bbox, by simp [bvhBuildNS], ?_, ?_⟩
      · intro q hq
        simp only [BVHTree.flatten, List.mem_append, List.mem_singleton] at hq
        rcases hq with h | h <;> simp [h]
      · intro st
        show ([a] ++ [a]).foldl (specStep sq uv r) st = [a].foldl (specStep sq uv r) st
        simp only [List.foldl_append, List.foldl_cons, List.foldl_nil]
        exact specStep_idem sq uv r st a
    rcases l with _ | ⟨c, rest⟩
    · refine ⟨.leaf a, .leaf b, AABB.fromBox a.bbox b.bbox, by simp [bvhBuildNS], ?_, ?_⟩
      · intro q hq
        simpa [BVHTree.flatten] using hq
      · intro st
        rfl
    · have hcard : (a :: b :: c :: rest).length = rest.length + 3 := by simp
      obtain ⟨lt1, rt1, bx1, hb1, hm1, hf1⟩ :=
        ih ((a :: b :: c :: rest).take ((a :: b :: c :: rest).length / 2))
          (by rw [List.length_take]; simp at hlen ⊢; omega)
          (by
            intro h
            have h2 := congrArg List.length h
            rw [List.length_take] at h2
            simp at h2
            omega)
      obtain ⟨lt2, rt2, bx2, hb2, hm2, hf2⟩ :=
        ih ((a :: b :: c :: rest).drop ((a :: b :: c :: rest).length / 2))
          (by rw [List.length_drop]; simp at hlen ⊢; omega)
          (by
            intro h
            have h2 := congrArg List.length h
            rw [List.length_drop] at h2
            simp at h2
            omega)
      refine ⟨BVHTree.node lt1 rt1 bx1, BVHTree.node lt2 rt2 bx2,
        AABB.fromBox (BVHTree.node lt1 rt1 bx1).box (BVHTree.node lt2 rt2 bx2).box,
        ?_, ?_, ?_⟩
      · rw [bvhBuildNS_cons3, hb1, hb2]
      · intro q hq
        simp only [BVHTree.flatten, List.mem_append] at hq
        rcases hq with (h | h) | (h | h)
        · exact List.take_subset _ _ (hm1 q (by simp [BVHTree.flatten, h]))
        · exact List.take_subset _ _ (hm1 q (by simp [BVHTree.flatten, h]))
        · exact List.drop_subset _ _ (hm2 q (by simp [BVHTree.flatten, h]))
        · exact List.drop_subset _ _ (hm2 q (by simp [BVHTree.flatten, h]))
      · intro st
        show (((BVHTree.node lt1 rt1 bx1).flatten)
              ++ ((BVHTree.node lt2 rt2 bx2).flatten)).foldl (specStep sq uv r) st
            = (a :: b :: c :: rest).foldl (specStep sq uv r) st
        rw [List.foldl_append, hf1, hf2, ← List.foldl_append, List.take_append_drop]

/-- BVH traversal computes exactly the scan fold over the traversal order
of its leaves: the Boolean returned is the or of the per-subtree hits, the
record returned is the fold's record, and a missed subtree leaves the
state untouched.  Requires all direction components nonzero (else the box
gates raise), regular primitives, a nondegenerate search interval and no
candidate ties (else the inclusive quad test could re-accept a tied hit). -/
theorem bvhHit_fold (sq : ℚ → ℚ) (uv : Vec3 → ℚ × ℚ) (r : Ray)
    (l0 : List Prim) (rec0 : RecS) (m0 M0 : XQ)
    (hx : r.direction.x ≠ 0) (hy : r.direction.y ≠ 0) (hz : r.direction.z ≠ 0)
    (ha : r.direction.lengthSquared ≠ 0)
    (hreg : ∀ p ∈ l0, PrimRegular sq r p)
    (hnt : NoTies sq uv r m0 l0) (hmM : m0 < M0) :
    ∀ T : BVHTree, (∀ p ∈ T.flatten, p ∈ l0) →
      ∀ st, StInv sq uv r l0 rec0 m0 M0 st →
        ∃ bT, bvhHit sq uv r T ⟨m0, st.2.2.max⟩ st.2.1
              = some (bT, (T.flatten.foldl (specStep sq uv r) st).2.1) ∧
          (T.flatten.foldl (specStep sq uv r) st).1 = (st.1 || bT) ∧
          (bT = false → T.flatten.foldl (specStep sq uv r) st = st) := by
  intro T
  induction T with
  | leaf p =>
    intro hmem st hst
    have hp : p ∈ l0 := hmem p (by simp [BVHTree.flatten])
    have hmin := StInv_min hst
    have hchar := prim_hit_char sq uv p r m0 st.2.2.max st.2.1 (hreg p hp) ha
    simp only [bvhHit, BVHTree.flatten, List.foldl_cons, List.foldl_nil]
    cases hc : primCandidate sq uv p r m0 with
    | none =>
      rw [specStep_of_none sq uv r p hc st hmin, hchar, hc]
      exact ⟨false, rfl, by simp, fun _ => rfl⟩
    | some rc =>
      rw [specStep_of_some sq uv r p rc hc st hmin, hchar, hc]
      dsimp only
      by_cases hacc : acceptRec p rc st.2.2.max
      · rw [if_pos hacc, if_pos hacc]
        exact ⟨true, rfl, by simp, fun h => Bool.noConfusion h⟩
      · rw [if_neg hacc, if_neg hacc]
        exact ⟨false, rfl, by simp, fun _ => rfl⟩
  | node lt rt bx ihl ihr =>
    intro hmem st hst
    have hmemL : ∀ p ∈ lt.flatten, p ∈ l0 := fun p hp =>
      hmem p (by simp [BVHTree.flatten, hp])
    have hmemR : ∀ p ∈ rt.flatten, p ∈ l0 := fun p hp =>
      hmem p (by simp [BVHTree.flatten, hp])
    have hflat : (BVHTree.node lt rt bx).flatten.foldl (specStep sq uv r) st
        = rt.flatten.foldl (specStep sq uv r)
            (lt.flatten.foldl (specStep sq uv r) st) := by
      simp [BVHTree.flatten, List.foldl_append]
    rcases aabb_hit_cases bx r ⟨m0, st.2.2.max⟩ hx hy hz with hg | ⟨hg, hle⟩
    · obtain ⟨bL, hL1, hL2, hL3⟩ := ihl hmemL st hst
      have hstMid := specFold_inv sq uv r l0 rec0 m0 M0 lt.flatten hmemL st hst
      simp only [bvhHit]
      rw [hg, hL1]
      dsimp only
      cases bL with
      | true =>
        have hMid1 : (lt.flatten.foldl (specStep sq uv r) st).1 = true := by
          rw [hL2]; simp
        have hstMidF := hstMid
        rcases hstMid with hMidEq | ⟨p0, rc, hp0, hc0, hMidEq⟩
        · rw [hMidEq] at hMid1
          exact absurd hMid1 (by simp)
        · obtain ⟨bR, hR1, hR2, hR3⟩ := ihr hmemR
            (lt.flatten.foldl (specStep sq uv r) st) hstMidF
          rw [hflat, hMidEq]
          rw [hMidEq] at hR1 hR2
          dsimp only at hR1 hR2 ⊢
          rw [if_pos (rfl : (true : Bool) = true)]
          dsimp only
          rw [hR1]
          refine ⟨true, by simp, ?_, fun h => Bool.noConfusion h⟩
          rw [hR2]
          simp
      | false =>
        have hMidEq := hL3 rfl
        obtain ⟨bR, hR1, hR2, hR3⟩ := ihr hmemR st hst
        rw [hflat, hMidEq, if_neg Bool.false_ne_true]
        dsimp only
        rw [hR1]
        refine ⟨bR, by simp, hR2, ?_⟩
        intro h
        exact hR3 h
    · have hle2 : st.2.2.max ≤ m0 := hle
      have hnoop : (BVHTree.node lt rt bx).flatten.foldl (specStep sq uv r) st
          = st := by
        rw [hflat,
          specFold_noop sq uv r l0 rec0 m0 M0 hnt hmM lt.flatten hmemL st hst hle2,
          specFold_noop sq uv r l0 rec0 m0 M0 hnt hmM rt.flatten hmemR st hst hle2]
      simp only [bvhHit]
      rw [hg, hnoop]
      exact ⟨false, rfl, by simp, fun _ => rfl⟩

theorem Vec3.lengthSquared_ne_zero_of_x (v : Vec3) (hx : v.x ≠ 0) :
    v.lengthSquared ≠ 0 := by
  unfold Vec3.lengthSquared
  intro h
  have h2 : v.x * v.x = 0 := le_antisymm
    (by nlinarith [mul_self_nonneg v.y, mul_self_nonneg v.z])
    (mul_self_nonneg v.x)
  exact hx (mul_self_eq_zero.mp h2)

/-- C3 (amended): BVH traversal (`BVHNode.hit`, including the root sort,
the midpoint split and the span-one duplication) and the brute-force scan
(`HittableList.hit`) agree for every nonempty primitive list, every
nondegenerate search interval and every regular primitive set, provided
the equivalence is read as follows.  If any ray direction component is
zero, both sides raise `ZeroDivisionError` in the slab test (the claim's
"same boolean, same record" is unstatable for them).  Otherwise, when no
two primitives produce candidate hits at exactly the same parameter `t`,
both sides return the same boolean and exactly the same closest-hit
record — same position, same `t`, same material.  (With a tie the winner
is traversal-order dependent and the materials can differ: see the
counterexample.) -/
theorem C3_amended_bvh_brute_equivalence (sq : ℚ → ℚ) (uv : Vec3 → ℚ × ℚ)
    (r : Ray) (assets : List Prim) (ax : Fin 3) (m0 M0 : XQ) (rec0 : RecS)
    (T : BVHTree) (hne : assets ≠ [])
    (hreg : ∀ p ∈ assets, PrimRegular sq r p) (hmM : m0 < M0)
    (hT : bvhBuild ax assets = some T) :
    ((r.direction.x = 0 ∨ r.direction.y = 0 ∨ r.direction.z = 0) →
        hittableListHit sq uv r assets ⟨m0, M0⟩ rec0 = none ∧
          bvhHit sq uv r T ⟨m0, M0⟩ rec0 = none) ∧
      (r.direction.x ≠ 0 → r.direction.y ≠ 0 → r.direction.z ≠ 0 →
        NoTies sq uv r m0 assets →
          ∃ b recO Iout, hittableListHit sq uv r assets ⟨m0, M0⟩ rec0
                = some (b, recO, Iout) ∧
              bvhHit sq uv r T ⟨m0, M0⟩ rec0 = some (b, recO)) := by
  obtain ⟨l1, hl1build, hperm⟩ : ∃ l1, bvhBuildNS l1 = some T ∧ l1.Perm assets := by
    unfold bvhBuild at hT
    split at hT
    · exact ⟨_, hT, List.perm_insertionSort _ _⟩
    · exact ⟨_, hT, List.Perm.refl _⟩
  have hl1ne : l1 ≠ [] := by
    intro h
    rw [h] at hperm
    exact hne hperm.symm.eq_nil
  obtain ⟨lt1, rt1, bx1, hbuild, hmemT, hfoldT⟩ :=
    bvhBuildNS_spec sq uv r l1.length l1 le_rfl hl1ne
  rw [hl1build] at hbuild
  have hTeq : T = BVHTree.node lt1 rt1 bx1 := Option.some_inj.mp hbuild
  subst hTeq
  have hmem0 : ∀ p ∈ (BVHTree.node lt1 rt1 bx1).flatten, p ∈ assets :=
    fun p hp => hperm.subset (hmemT p hp)
  obtain ⟨bb, hbb⟩ : ∃ bb, listBbox assets = some bb := by
    rcases assets with _ | ⟨a0, as0⟩
    · exact absurd rfl hne
    · exact ⟨_, rfl⟩
  constructor
  · intro h0
    constructor
    · unfold hittableListHit
      rw [hbb]
      dsimp only
      rw [aabb_hit_zero_none bb r ⟨m0, M0⟩ hmM h0]
    · simp only [bvhHit]
      rw [aabb_hit_zero_none bx1 r ⟨m0, M0⟩ hmM h0]
  · intro hx hy hz hnt
    have ha : r.direction.lengthSquared ≠ 0 :=
      Vec3.lengthSquared_ne_zero_of_x r.direction hx
    have hgate : bb.hit r ⟨m0, M0⟩ = some true := by
      rcases aabb_hit_cases bb r ⟨m0, M0⟩ hx hy hz with h | ⟨_, hle⟩
      · exact h
      · exact absurd (lt_of_lt_of_le hmM hle) (lt_irrefl _)
    rcases hN : assets.foldl (specStep sq uv r) (false, none, ⟨m0, M0⟩)
      with ⟨bN, recN, IN⟩
    rcases hR : assets.foldl (specStep sq uv r) (false, rec0, ⟨m0, M0⟩)
      with ⟨bR, recR, IR⟩
    obtain ⟨hb_eq, htrue_eq, hfalse_eq⟩ :=
      specFold_rec_indep sq uv r assets ⟨m0, M0⟩ none rec0
    rw [hN, hR] at hb_eq htrue_eq hfalse_eq
    have hbrute : hittableListHit sq uv r assets ⟨m0, M0⟩ rec0
        = some (bN, if bN then recN else rec0, IN) := by
      unfold hittableListHit sceneHit
      rw [hbb]
      dsimp only
      rw [hgate]
      dsimp only
      rw [scanPrims_eq_specFold sq uv r ha assets hreg (false, none, ⟨m0, M0⟩), hN]
    have hstO : (BVHTree.node lt1 rt1 bx1).flatten.foldl (specStep sq uv r)
        (false, rec0, ⟨m0, M0⟩) = (bR, recR, IR) := by
      rw [hfoldT (false, rec0, ⟨m0, M0⟩),
        foldl_specStep_perm sq uv r m0 assets hnt hperm
          (fun p hp => hperm.subset hp) (false, rec0, ⟨m0, M0⟩) rfl, hR]
    obtain ⟨bT, hbvh, hbool, hfalse⟩ :=
      bvhHit_fold sq uv r assets rec0 m0 M0 hx hy hz ha hreg hnt hmM
        (BVHTree.node lt1 rt1 bx1) hmem0 (false, rec0, ⟨m0, M0⟩) (Or.inl rfl)
    rw [hstO] at hbvh hbool hfalse
    dsimp only at hbvh hbool
    rw [Bool.false_or] at hbool
    cases bN with
    | false =>
      obtain ⟨hNE, hRE⟩ := hfalse_eq rfl
      obtain ⟨hbR, hrecR, hIR⟩ : bR = false ∧ recR = rec0 ∧ IR = ⟨m0, M0⟩ := by
        have h1 : bR = false := by
          have := congrArg (fun s => s.1) hRE
          simpa using this
        have h2 : recR = rec0 := by
          have := congrArg (fun s => s.2.1) hRE
          simpa using this
        have h3 : IR = ⟨m0, M0⟩ := by
          have := congrArg (fun s => s.2.2) hRE
          simpa using this
        exact ⟨h1, h2, h3⟩
      refine ⟨false, rec0, IN, ?_, ?_⟩
      · rw [hbrute]
        simp
      · rw [hbvh, ← hbool, hbR, hrecR]
    | true =>
      have hEq := htrue_eq rfl
      obtain ⟨hbR, hrecR, hIR⟩ : true = bR ∧ recN = recR ∧ IN = IR := by
        have h1 : true = bR := by
          have := congrArg (fun s => s.1) hEq
          simpa using this
        have h2 : recN = recR := by
          have := congrArg (fun s => s.2.1) hEq
          simpa using this
        have h3 : IN = IR := by
          have := congrArg (fun s => s.2.2) hEq
          simpa using this
        exact ⟨h1, h2, h3⟩
      refine ⟨true, recN, IN, ?_, ?_⟩
      · rw [hbrute]
        simp
      · rw [hbvh, ← hbool, ← hbR, ← hrecR]

/-- Quad in the plane z = 5 covering [4,6]x[4,6], material 1. -/
def quadA : Quad := mkQuad sq16 ⟨4, 4, 5⟩ ⟨2, 0, 0⟩ ⟨0, 2, 0⟩ 1

/-- Quad in the plane x = 5 covering [4,6]x[4,6], material 2. -/
def quadB : Quad := mkQuad sq16 ⟨5, 4, 4⟩ ⟨0, 2, 0⟩ ⟨0, 0, 2⟩ 2

/-- A far-away quad the diagonal ray misses, material 3. -/
def quadC : Quad := mkQuad sq16 ⟨100, 100, -50⟩ ⟨2, 0, 0⟩ ⟨0, 2, 0⟩ 3

/-- Assets listed with B before A (the x-axis sort swaps them). -/
def assetsC3 : List Prim := [Prim.quad quadB, Prim.quad quadA, Prim.quad quadC]

/-- The diagonal ray, which meets quads A and B at the same t = 5. -/
def rayDiag : Ray := ⟨⟨0, 0, 0⟩, ⟨1, 1, 1⟩⟩

/-- The record of the tied hit on quad A (hit point (5,5,5), t = 5). -/
def rcA3 : HitRecord := ⟨⟨5, 5, 5⟩, ⟨0, 0, -1⟩, 1, 5, 1/2, 1/2, false⟩

/-- The record of the tied hit on quad B (same point and t, material 2). -/
def rcB3 : HitRecord := ⟨⟨5, 5, 5⟩, ⟨-1, 0, 0⟩, 2, 5, 1/2, 1/2, false⟩

/-- The tree built by `BVHNode(assetsC3)` sorting on the x axis. -/
def treeC3 : BVHTree :=
  .node
    (.node (.leaf (Prim.quad quadA)) (.leaf (Prim.quad quadA))
      (AABB.fromBox (Prim.quad quadA).bbox (Prim.quad quadA).bbox))
    (.node (.leaf (Prim.quad quadB)) (.leaf (Prim.quad quadC))
      (AABB.fromBox (Prim.quad quadB).bbox (Prim.quad quadC).bbox))
    (AABB.fromBox
      (AABB.fromBox (Prim.quad quadA).bbox (Prim.quad quadA).bbox)
      (AABB.fromBox (Prim.quad quadB).bbox (Prim.quad quadC).bbox))

theorem sortKey_zero (p : Prim) : sortKey 0 p = p.bbox.x.min := rfl

/-- C3 (counterexample): quads A and B both hit the diagonal ray at
exactly t = 5.  The brute-force scan of [B, A, C] (last accepted tie wins
under the inclusive quad test) returns the record of A (material 1), while
the BVH built over the same list (sorted on x, so A's subtree is traversed
first and B's tie then re-accepts) returns the record of B (material 2):
same boolean, same position, same t, different material, refuting the
claim for arbitrary primitive sets. -/
theorem C3_counterexample_tie_depends_on_order :
    hittableListHit sq16 uv5 rayDiag assetsC3 iEps none
        = some (true, some rcA3, ⟨XQ.fin (1/1000), XQ.fin 5⟩) ∧
      bvhBuild 0 assetsC3 = some treeC3 ∧
      bvhHit sq16 uv5 rayDiag treeC3 iEps none = some (true, some rcB3) ∧
      rcA3.t = rcB3.t ∧ rcA3.p = rcB3.p ∧ rcA3.mat ≠ rcB3.mat := by
  refine ⟨?_, ?_, ?_, rfl, rfl, by decide⟩
  · norm_num [hittableListHit, listBbox, sceneHit, scanPrims, scanStep, Prim.hit,
      Quad.hit, AABB.hit, AABB.axisStep, assetsC3, quadA, quadB, quadC, mkQuad,
      Prim.bbox, AABB.fromBox, AABB.fromPoints, QInterval.fromIntervals, rayDiag,
      iEps, Vec3.dot, Vec3.cross, Vec3.lengthSquared, Vec3.unitVector, sq16,
      Ray.at, Interval.contains, unitContains, faceNormal, min_def, max_def,
      XQ.le_def, XQ.leb, rcA3, List.foldl_cons, List.foldl_nil]
  · norm_num [bvhBuild, bvhBuildNS, treeC3, assetsC3, List.insertionSort,
      List.orderedInsert, sortKey_zero, quadA, quadB, quadC, mkQuad, Prim.bbox,
      BVHTree.box, AABB.fromBox, AABB.fromPoints, QInterval.fromIntervals,
      Vec3.cross, Vec3.dot, Vec3.lengthSquared, Vec3.unitVector, sq16,
      List.length_cons, List.take, List.drop, min_def, max_def]
  · norm_num [bvhHit, treeC3, Prim.hit, Quad.hit, AABB.hit, AABB.axisStep,
      quadA, quadB, quadC, mkQuad, Prim.bbox, AABB.fromBox, AABB.fromPoints,
      QInterval.fromIntervals, rayDiag, iEps, Vec3.dot, Vec3.cross,
      Vec3.lengthSquared, Vec3.unitVector, sq16, Ray.at, Interval.contains,
      unitContains, faceNormal, min_def, max_def, XQ.le_def, XQ.leb, rcA3, rcB3]

/-- The single-sphere primitive used to witness the amended C3. -/
def primWit : Prim := Prim.sphere sphere5

/-- The tree `BVHNode([primWit])` builds (span of one duplicates). -/
def treeWit : BVHTree :=
  .node (.leaf primWit) (.leaf primWit)
    (AABB.fromBox primWit.bbox primWit.bbox)

theorem C3_witness :
    ([primWit] ≠ [] ∧ (∀ p ∈ [primWit], PrimRegular sq5 ray5 p) ∧
        XQ.fin (1/1000) < XQ.pinf ∧ bvhBuild 0 [primWit] = some treeWit) ∧
      ((ray5.direction.x = 0 ∨ ray5.direction.y = 0 ∨ ray5.direction.z = 0) →
          hittableListHit sq5 uv5 ray5 [primWit]
              ⟨XQ.fin (1/1000), XQ.pinf⟩ none = none ∧
            bvhHit sq5 uv5 ray5 treeWit ⟨XQ.fin (1/1000), XQ.pinf⟩ none = none) ∧
      (ray5.direction.x ≠ 0 → ray5.direction.y ≠ 0 → ray5.direction.z ≠ 0 →
        NoTies sq5 uv5 ray5 (XQ.fin (1/1000)) [primWit] →
          ∃ b recO Iout,
            hittableListHit sq5 uv5 ray5 [primWit]
                ⟨XQ.fin (1/1000), XQ.pinf⟩ none = some (b, recO, Iout) ∧
              bvhHit sq5 uv5 ray5 treeWit ⟨XQ.fin (1/1000), XQ.pinf⟩ none
                = some (b, recO)) := by
  have h1 : [primWit] ≠ [] := by simp
  have h2 : ∀ p ∈ [primWit], PrimRegular sq5 ray5 p := by
    intro p hp
    rw [List.mem_singleton] at hp
    subst hp
    refine ⟨by norm_num [primWit, sphere5, mkSphere], ?_⟩
    intro _
    rw [sphere5_disc]
    norm_num [sq5]
  have h3 : XQ.fin (1/1000) < XQ.pinf := XQ.lt_pinf _
  have h4 : bvhBuild 0 [primWit] = some treeWit := by
    simp [bvhBuild, bvhBuildNS, treeWit]
  have h := C3_amended_bvh_brute_equivalence sq5 uv5 ray5 [primWit] 0
    (XQ.fin (1/1000)) XQ.pinf none treeWit h1 h2 h3 h4
  exact ⟨⟨h1, h2, h3, h4⟩, h.1, h.2⟩

end RTrace
